import Mathlib

set_option linter.unusedVariables false

/-! Verification development for the token-stream decoding core in src/de.rs.

The token stream is modelled as a `List Token`; the stateful pull-based
stream consumption of the Rust code is modelled by explicit state passing:
a computation of type `M α` takes the remaining stream and returns either a
typed error or a result together with the rest of the stream.  Machine
integers are modelled by their mathematical values (`ℤ`), floating payloads
by exact rationals (`ℚ`). -/

/-- The canonical token data model (`enum Token` in src/de.rs).  The payload
of each integer-width variant is the mathematical value of the machine
integer; the payload of the float variants is the exact rational value.
`Str` is the borrowed string form, `String` the owned form. -/
inductive Token where
  | Null : Token
  | Bool (b : Bool) : Token
  | Int (x : ℤ) : Token
  | I8 (x : ℤ) : Token
  | I16 (x : ℤ) : Token
  | I32 (x : ℤ) : Token
  | I64 (x : ℤ) : Token
  | Uint (x : ℤ) : Token
  | U8 (x : ℤ) : Token
  | U16 (x : ℤ) : Token
  | U32 (x : ℤ) : Token
  | U64 (x : ℤ) : Token
  | F32 (q : ℚ) : Token
  | F64 (q : ℚ) : Token
  | Char (c : Char) : Token
  | Str (s : String) : Token
  | String (s : String) : Token
  | Option (b : Bool) : Token
  | TupleStart (n : ℕ) : Token
  | StructStart (name : String) (n : ℕ) : Token
  | EnumStart (name : String) (variant : String) (n : ℕ) : Token
  | SeqStart (n : ℕ) : Token
  | MapStart (n : ℕ) : Token
  | End : Token
deriving DecidableEq, Repr

/-- The three error kinds of the stream contract: the trait's
`end_of_stream_error`, `syntax_error` (carrying the offending token) and
`missing_field_error` (carrying the field name) constructors, instantiated
with an error domain that records exactly what each constructor was given. -/
inductive Err where
  | EndOfStream : Err
  | SyntaxError (t : Token) : Err
  | MissingField (f : String) : Err
deriving DecidableEq, Repr

/-- A stream computation: consumes tokens from the front of the list. -/
abbrev M (α : Type) := List Token → Except Err (α × List Token)

/-- Return without consuming input (`Ok`). -/
def mret {α : Type} (a : α) : M α := fun ts => .ok (a, ts)

/-- Fail with the given error. -/
def mthrow {α : Type} (e : Err) : M α := fun _ => .error e

/-- Sequencing, i.e. Rust's `try!`: propagate the error, otherwise continue
on the remaining stream. -/
def mbind {α β : Type} (m : M α) (f : α → M β) : M β := fun ts =>
  match m ts with
  | .error e => .error e
  | .ok (a, ts') => f a ts'

/-- `expect_token`: pull one token, turning stream exhaustion into the
end-of-stream error.  (In the list model the underlying source itself never
fails, matching the `TokenDeserializer` used by the repository's tests.) -/
def expect_token : M Token := fun ts =>
  match ts with
  | [] => .error .EndOfStream
  | t :: ts' => .ok (t, ts')

/-- The numeric target types an `expect_num::<T>` call can be instantiated
at: every machine-integer width plus the two float widths. -/
inductive NumTarget where
  | tInt | tI8 | tI16 | tI32 | tI64
  | tUint | tU8 | tU16 | tU32 | tU64
  | tF32 | tF64
deriving DecidableEq, Repr

/-- Value range of the integer targets (`int`/`uint` taken as 64-bit,
matching the pointer-sized integers of the source's target platforms);
`none` for the float targets. -/
def intRange : NumTarget → Option (ℤ × ℤ)
  | .tInt => some (-(2 ^ 63), 2 ^ 63 - 1)
  | .tI8 => some (-(2 ^ 7), 2 ^ 7 - 1)
  | .tI16 => some (-(2 ^ 15), 2 ^ 15 - 1)
  | .tI32 => some (-(2 ^ 31), 2 ^ 31 - 1)
  | .tI64 => some (-(2 ^ 63), 2 ^ 63 - 1)
  | .tUint => some (0, 2 ^ 64 - 1)
  | .tU8 => some (0, 2 ^ 8 - 1)
  | .tU16 => some (0, 2 ^ 16 - 1)
  | .tU32 => some (0, 2 ^ 32 - 1)
  | .tU64 => some (0, 2 ^ 64 - 1)
  | .tF32 => none
  | .tF64 => none

/-- 2-adic valuation of a natural number (`twoVal 0 = 0`). -/
def twoVal : ℕ → ℕ
  | 0 => 0
  | n + 1 => if (n + 1) % 2 = 0 then twoVal ((n + 1) / 2) + 1 else 0
decreasing_by omega

/-- The odd part of a natural number (`oddPart 0 = 0`). -/
def oddPart (n : ℕ) : ℕ := n / 2 ^ twoVal n

/-- A rational is exactly representable in a binary floating-point format
with `mbits` bits of significand, minimal (subnormal) exponent `emin` and
overflow bound `2 ^ elim`, iff it is zero or a dyadic rational `m * 2 ^ e`
with `|m| < 2 ^ mbits`, `e ≥ emin` and magnitude below `2 ^ elim`. -/
def floatRep (mbits : ℕ) (emin : ℤ) (elim : ℕ) (q : ℚ) : Bool :=
  q == 0 ||
    (oddPart q.den == 1 &&
      oddPart q.num.natAbs < 2 ^ mbits &&
      decide (emin ≤ (twoVal q.num.natAbs : ℤ) - (twoVal q.den : ℤ)) &&
      q.num.natAbs < 2 ^ elim * q.den)

/-- Whether the exact value `q` is representable in the numeric target
type.  Integer targets: an integer within the type's range.  Float targets:
exactly representable in the corresponding binary format. -/
def representable (tgt : NumTarget) (q : ℚ) : Bool :=
  match intRange tgt with
  | some (lo, hi) => q.den == 1 && decide (lo ≤ q.num) && decide (q.num ≤ hi)
  | none =>
    match tgt with
    | .tF32 => floatRep 24 (-149) 128 q
    | .tF64 => floatRep 53 (-1074) 1024 q
    | _ => false

/-- Modelled from the spec: the checked numeric conversion performed by the
standard library's `NumCast`/`FromPrimitive` paths (code outside this
repository) — "a saturating/checked numeric cast to the requested numeric
type; cast failure (out of range, or no defined conversion) is a syntax
error".  It succeeds with the exact value precisely when that value is
representable in the target type. -/
def numCast (tgt : NumTarget) (q : ℚ) : Option ℚ :=
  if representable tgt q then some q else none

/-- The numeric value carried by a token, when the token is one of the
twelve numeric scalar variants. -/
def numValue : Token → Option ℚ
  | .Int x => some (x : ℚ)
  | .I8 x => some (x : ℚ)
  | .I16 x => some (x : ℚ)
  | .I32 x => some (x : ℚ)
  | .I64 x => some (x : ℚ)
  | .Uint x => some (x : ℚ)
  | .U8 x => some (x : ℚ)
  | .U16 x => some (x : ℚ)
  | .U32 x => some (x : ℚ)
  | .U64 x => some (x : ℚ)
  | .F32 q => some q
  | .F64 q => some q
  | _ => none

/-- `expect_null` (src/de.rs): accepts the absence marker `Null`, or a
tuple opener immediately followed by `End`; anything else is a syntax
error carrying the offending token. -/
def expect_null (token : Token) : M Unit :=
  match token with
  | .Null => mret ()
  | .TupleStart _ =>
    mbind expect_token fun t =>
      if t = .End then mret () else mthrow (.SyntaxError t)
  | token => mthrow (.SyntaxError token)

/-- `expect_bool`. -/
def expect_bool (token : Token) : M Bool :=
  match token with
  | .Bool value => mret value
  | token => mthrow (.SyntaxError token)

/-- `expect_num::<T>` for the numeric target `tgt`: each of the twelve
numeric token variants goes through the checked cast, a cast failure being
a syntax error that carries the original token (`to_result!` in the
source); every other token is a syntax error. -/
def expect_num (tgt : NumTarget) (token : Token) : M ℚ :=
  match token with
  | .Int x =>
    match numCast tgt (x : ℚ) with
    | some v => mret v
    | none => mthrow (.SyntaxError (.Int x))
  | .I8 x =>
    match numCast tgt (x : ℚ) with
    | some v => mret v
    | none => mthrow (.SyntaxError (.I8 x))
  | .I16 x =>
    match numCast tgt (x : ℚ) with
    | some v => mret v
    | none => mthrow (.SyntaxError (.I16 x))
  | .I32 x =>
    match numCast tgt (x : ℚ) with
    | some v => mret v
    | none => mthrow (.SyntaxError (.I32 x))
  | .I64 x =>
    match numCast tgt (x : ℚ) with
    | some v => mret v
    | none => mthrow (.SyntaxError (.I64 x))
  | .Uint x =>
    match numCast tgt (x : ℚ) with
    | some v => mret v
    | none => mthrow (.SyntaxError (.Uint x))
  | .U8 x =>
    match numCast tgt (x : ℚ) with
    | some v => mret v
    | none => mthrow (.SyntaxError (.U8 x))
  | .U16 x =>
    match numCast tgt (x : ℚ) with
    | some v => mret v
    | none => mthrow (.SyntaxError (.U16 x))
  | .U32 x =>
    match numCast tgt (x : ℚ) with
    | some v => mret v
    | none => mthrow (.SyntaxError (.U32 x))
  | .U64 x =>
    match numCast tgt (x : ℚ) with
    | some v => mret v
    | none => mthrow (.SyntaxError (.U64 x))
  | .F32 q =>
    match numCast tgt q with
    | some v => mret v
    | none => mthrow (.SyntaxError (.F32 q))
  | .F64 q =>
    match numCast tgt q with
    | some v => mret v
    | none => mthrow (.SyntaxError (.F64 q))
  | token => mthrow (.SyntaxError token)

/-- `expect_from_primitive::<T>`: same token dispatch as `expect_num`, the
conversion going through the `FromPrimitive` path (also modelled by
`numCast`; see its doc comment). -/
def expect_from_primitive (tgt : NumTarget) (token : Token) : M ℚ :=
  expect_num tgt token

/-- `expect_char`. -/
def expect_char (token : Token) : M Char :=
  match token with
  | .Char value => mret value
  | token => mthrow (.SyntaxError token)

/-- `expect_str`: accepts only the borrowed string form. -/
def expect_str (token : Token) : M String :=
  match token with
  | .Str value => mret value
  | token => mthrow (.SyntaxError token)

/-- `expect_string`: accepts the borrowed form (copying it) or the owned
form. -/
def expect_string (token : Token) : M String :=
  match token with
  | .Str value => mret value
  | .String value => mret value
  | token => mthrow (.SyntaxError token)

/-- `expect_option::<T>`: `dT` is the nested `Deserializable::deserialize`
call for the element type. -/
def expect_option {α : Type} (dT : M α) (token : Token) : M (Option α) :=
  match token with
  | .Option false => mret none
  | .Option true => mbind dT fun value => mret (some value)
  | token => mthrow (.SyntaxError token)

/-- `expect_tuple_start`: a tuple opener, yielding its count hint. -/
def expect_tuple_start (token : Token) : M ℕ :=
  match token with
  | .TupleStart len => mret len
  | token => mthrow (.SyntaxError token)

/-- `expect_tuple_end`: pull one token and require `End`. -/
def expect_tuple_end : M Unit :=
  mbind expect_token fun t =>
    match t with
    | .End => mret ()
    | t => mthrow (.SyntaxError t)

/-- `expect_struct_start`: a struct opener whose name equals the expected
name; the error carries the opener. -/
def expect_struct_start (token : Token) (name : String) : M Unit :=
  match token with
  | .StructStart n len => if name = n then mret () else mthrow (.SyntaxError (.StructStart n len))
  | token => mthrow (.SyntaxError token)

/-- The textual payload of a string-like token (`Str` borrowed or
`String` owned), `none` for every other token. -/
def tokText : Token → Option String
  | .Str s => some s
  | .String s => some s
  | _ => none

/-- `expect_struct_field::<T>`: pull the field-name token, require it to be
a string-like token whose text equals the expected field name (the error
carries the pulled token), then dispatch the field value (`dT`). -/
def expect_struct_field {α : Type} (dT : M α) (name : String) : M α :=
  mbind expect_token fun t =>
    if tokText t = some name then dT else mthrow (.SyntaxError t)

/-- `expect_struct_end`: pull one token and require `End`. -/
def expect_struct_end : M Unit :=
  mbind expect_token fun t =>
    match t with
    | .End => mret ()
    | t => mthrow (.SyntaxError t)

/-- `Iterator::position` over a list of variant names: the index of the
first occurrence of `v`, if any. -/
def listPos (v : String) : List String → Option ℕ
  | [] => none
  | x :: xs => if x = v then some 0 else (listPos v xs).map (· + 1)

/-- `expect_enum_start`: a tagged-union opener whose type name equals the
expected union name and whose variant name occurs in the supplied variant
list, yielding the position of its first occurrence; all failures carry
the offending token. -/
def expect_enum_start (token : Token) (name : String) (variants : List String) : M ℕ :=
  match token with
  | .EnumStart n v len =>
    if name = n then
      match listPos v variants with
      | some position => mret position
      | none => mthrow (.SyntaxError (.EnumStart n v len))
    else mthrow (.SyntaxError (.EnumStart n v len))
  | token => mthrow (.SyntaxError token)

/-- `expect_enum_end`: pull one token and require `End`. -/
def expect_enum_end : M Unit :=
  mbind expect_token fun t =>
    match t with
    | .End => mret ()
    | t => mthrow (.SyntaxError t)

/-- `expect_seq_start`: accepts either a tuple opener or a sequence opener,
yielding its count hint. -/
def expect_seq_start (token : Token) : M ℕ :=
  match token with
  | .TupleStart len => mret len
  | .SeqStart len => mret len
  | token => mthrow (.SyntaxError token)

/-- `expect_seq_elt_or_end::<T>`: pull one token; `End` means no further
element, anything else is dispatched (`deserialize_token`) to the element
type `dtok`. -/
def expect_seq_elt_or_end {α : Type} (dtok : Token → M α) : M (Option α) :=
  mbind expect_token fun t =>
    if t = .End then mret none
    else mbind (dtok t) fun value => mret (some value)

/-- The element loop driven by `expect_seq` (the `SeqDeserializer`
iterator together with `collect`): keep taking elements until the `End`
token, stopping at the first error.  `fuel` bounds the recursion depth; it
plays the role of the unbounded Rust loop and every theorem below supplies
enough of it. -/
def seq_items {α : Type} (dtok : Token → M α) : ℕ → M (List α)
  | 0 => mthrow .EndOfStream
  | f + 1 =>
    mbind (expect_seq_elt_or_end dtok) fun o =>
      match o with
      | none => mret []
      | some v => mbind (seq_items dtok f) fun vs => mret (v :: vs)

/-- `expect_seq::<T, C>`: validate the opener (its count hint is used only
as a capacity reservation, with no observable effect in this model) and
collect elements until `End`. -/
def expect_seq {α : Type} (dtok : Token → M α) (token : Token) (f : ℕ) : M (List α) :=
  mbind (expect_seq_start token) fun _len => seq_items dtok f

/-- `expect_map_start`: a map opener, yielding its count hint. -/
def expect_map_start (token : Token) : M ℕ :=
  match token with
  | .MapStart len => mret len
  | token => mthrow (.SyntaxError token)

/-- `expect_map_elt_or_end::<K, V>`: pull one token; `End` means no further
entry; otherwise the token starts the key (`dtokK`, a `deserialize_token`
dispatch) which is immediately followed by the value (`dV`, a full
`deserialize` dispatch). -/
def expect_map_elt_or_end {α β : Type} (dtokK : Token → M α) (dV : M β) : M (Option (α × β)) :=
  mbind expect_token fun t =>
    if t = .End then mret none
    else mbind (dtokK t) fun key => mbind dV fun value => mret (some (key, value))

/-- The entry loop driven by `expect_map` (the `MapDeserializer` iterator
together with `collect`). -/
def map_items {α β : Type} (dtokK : Token → M α) (dV : M β) : ℕ → M (List (α × β))
  | 0 => mthrow .EndOfStream
  | f + 1 =>
    mbind (expect_map_elt_or_end dtokK dV) fun o =>
      match o with
      | none => mret []
      | some kv => mbind (map_items dtokK dV f) fun kvs => mret (kv :: kvs)

/-- `expect_map::<K, V, C>`: validate the opener (count hint advisory
only) and collect key/value pairs until `End`. -/
def expect_map {α β : Type} (dtokK : Token → M α) (dV : M β) (token : Token) (f : ℕ) : M (List (α × β)) :=
  mbind (expect_map_start token) fun _len => map_items dtokK dV f

/-- The universe of decodable type shapes: the `Deserializable` impls of
src/de.rs.  `unit` is the zero-arity tuple impl (which delegates to
`expect_null`); `box` stands for the four ownership-wrapper impls (all
structural passthroughs); `seq` covers `Vec`/`HashSet`/`TreeSet` (all
`expect_seq`); `tmap` covers `HashMap`/`TreeMap` (`expect_map`); `tuple`
is the positive-arity tuple macro; `structTy`/`enumTy` are the
struct/tagged-union decode patterns of the repository (the `Inner`,
`Outer` and `Animal` impls in src/de.rs). -/
inductive Ty where
  | unit : Ty
  | bool : Ty
  | num (tgt : NumTarget) : Ty
  | char : Ty
  | str : Ty
  | string : Ty
  | opt (τ : Ty) : Ty
  | box (τ : Ty) : Ty
  | seq (τ : Ty) : Ty
  | tmap (κ ν : Ty) : Ty
  | tuple (τs : List Ty) : Ty
  | structTy (name : String) (fields : List (String × Ty)) : Ty
  | enumTy (name : String) (variants : List (String × List Ty)) : Ty

/-- Decoded values, one constructor per type-shape family. -/
inductive Val where
  | VUnit : Val
  | VBool (b : Bool) : Val
  | VNum (q : ℚ) : Val
  | VChar (c : Char) : Val
  | VStr (s : String) : Val
  | VString (s : String) : Val
  | VOpt (o : Option Val) : Val
  | VList (vs : List Val) : Val
  | VMap (kvs : List (Val × Val)) : Val
  | VTuple (vs : List Val) : Val
  | VStruct (vs : List Val) : Val
  | VEnum (idx : ℕ) (args : List Val) : Val

mutual

/-- `Deserializable::deserialize`: pull the leading token and forward to
the token-directed decode. -/
def deserialize : ℕ → Ty → M Val
  | 0, _ => mthrow .EndOfStream
  | f + 1, τ => mbind expect_token fun t => deserialize_token f τ t

/-- `Deserializable::deserialize_token` for every type shape, mirroring
the per-type impls of src/de.rs arm by arm. -/
def deserialize_token : ℕ → Ty → Token → M Val
  | 0, _, _ => mthrow .EndOfStream
  | f + 1, τ, t =>
    match τ with
    | .unit => mbind (expect_null t) fun _ => mret .VUnit
    | .bool => mbind (expect_bool t) fun b => mret (.VBool b)
    | .num tgt => mbind (expect_num tgt t) fun q => mret (.VNum q)
    | .char => mbind (expect_char t) fun c => mret (.VChar c)
    | .str => mbind (expect_str t) fun s => mret (.VStr s)
    | .string => mbind (expect_string t) fun s => mret (.VString s)
    | .opt τ => mbind (expect_option (deserialize f τ) t) fun o => mret (.VOpt o)
    | .box τ => deserialize_token f τ t
    | .seq τ => mbind (expect_seq (fun t' => deserialize_token f τ t') t (f + 1)) fun vs => mret (.VList vs)
    | .tmap κ ν =>
      mbind (expect_map (fun t' => deserialize_token f κ t') (deserialize f ν) t (f + 1)) fun kvs =>
        mret (.VMap kvs)
    | .tuple τs =>
      mbind (expect_tuple_start t) fun _len =>
        mbind (tuple_elems f τs) fun vs =>
          mbind expect_tuple_end fun _ => mret (.VTuple vs)
    | .structTy name fields =>
      mbind (expect_struct_start t name) fun _ =>
        mbind (struct_fields f fields) fun vs =>
          mbind expect_struct_end fun _ => mret (.VStruct vs)
    | .enumTy name variants =>
      mbind (expect_enum_start t name (variants.map Prod.fst)) fun i =>
        match variants.get? i with
        | some (_, argTys) =>
          mbind (tuple_elems f argTys) fun args =>
            mbind expect_enum_end fun _ => mret (.VEnum i args)
        | none => mthrow (.SyntaxError t)

/-- The in-order element decodes of a positive-arity tuple (each element
via `expect_tuple_elt`, i.e. a full `deserialize`); also the per-variant
argument decodes of the tagged-union pattern (`Animal` in src/de.rs). -/
def tuple_elems : ℕ → List Ty → M (List Val)
  | 0, _ => mthrow .EndOfStream
  | _ + 1, [] => mret []
  | f + 1, τ :: τs =>
    mbind (deserialize f τ) fun v =>
      mbind (tuple_elems f τs) fun vs => mret (v :: vs)

/-- The in-order field decodes of the struct pattern: one
`expect_struct_field` per statically expected field name. -/
def struct_fields : ℕ → List (String × Ty) → M (List Val)
  | 0, _ => mthrow .EndOfStream
  | _ + 1, [] => mret []
  | f + 1, (name, τ) :: fields =>
    mbind (expect_struct_field (deserialize f τ) name) fun v =>
      mbind (struct_fields f fields) fun vs => mret (v :: vs)

end

mutual

/-- `IgnoreTokens::deserialize_token` (the Skip Engine), arm by arm.  Note
the struct arm: its mismatched-field-name error deliberately carries the
original opener token, exactly as the source does (`token` in scope there
is the outer match argument). -/
def ignore_token : ℕ → Token → M Unit
  | 0, _ => mthrow .EndOfStream
  | f + 1, token =>
    match token with
    | .Option true => mbind expect_token fun t => ignore_token f t
    | .EnumStart _ _ _ => ignore_items f
    | .StructStart name len => ignore_struct f (.StructStart name len)
    | .TupleStart _ => ignore_items f
    | .SeqStart _ => ignore_items f
    | .MapStart _ => ignore_map f
    | .End => mthrow (.SyntaxError .End)
    | _ => mret ()

/-- The loop shared (verbatim in the source) by the enum, tuple and
sequence arms of the Skip Engine: pull tokens, recursively skipping each,
until `End`. -/
def ignore_items : ℕ → M Unit
  | 0 => mthrow .EndOfStream
  | f + 1 =>
    mbind expect_token fun t =>
      if t = .End then mret ()
      else mbind (ignore_token f t) fun _ => ignore_items f

/-- The struct arm's loop: each pulled token must be `End` or string-like;
a string-like field name is followed by a recursive skip of one value; any
other token raises a syntax error carrying `orig`, the opener. -/
def ignore_struct : ℕ → Token → M Unit
  | 0, _ => mthrow .EndOfStream
  | f + 1, orig =>
    mbind expect_token fun t =>
      if t = .End then mret ()
      else if (tokText t).isSome then
        mbind (mbind expect_token fun t' => ignore_token f t') fun _ => ignore_struct f orig
      else mthrow (.SyntaxError orig)

/-- The map arm's loop: each non-`End` token starts a recursive skip of
the key, immediately followed by a recursive skip of the value. -/
def ignore_map : ℕ → M Unit
  | 0 => mthrow .EndOfStream
  | f + 1 =>
    mbind expect_token fun t =>
      if t = .End then mret ()
      else
        mbind (ignore_token f t) fun _ =>
          mbind (mbind expect_token fun t' => ignore_token f t') fun _ => ignore_map f

end

mutual

/-- `GatherTokens::gather_token` (the Gather Engine): same structural
recursion as the Skip Engine, but every consumed token is appended to the
accumulated buffer `acc` (the `tokens` vector; the capacity reservation
`reserve_additional(len + 1)` has no observable effect).  Returns the
buffer. -/
def gather_token : ℕ → List Token → Token → M (List Token)
  | 0, _, _ => mthrow .EndOfStream
  | f + 1, acc, token =>
    match token with
    | .Option true => gather f (acc ++ [.Option true])
    | .EnumStart name variant len => gather_items f (acc ++ [.EnumStart name variant len])
    | .StructStart name len => gather_struct f (acc ++ [.StructStart name len])
    | .TupleStart len => gather_items f (acc ++ [.TupleStart len])
    | .SeqStart len => gather_items f (acc ++ [.SeqStart len])
    | .MapStart len => gather_map f (acc ++ [.MapStart len])
    | .End => mthrow (.SyntaxError .End)
    | t => mret (acc ++ [t])

/-- `GatherTokens::gather`: pull and capture one value. -/
def gather : ℕ → List Token → M (List Token)
  | 0, _ => mthrow .EndOfStream
  | f + 1, acc => mbind expect_token fun t => gather_token f acc t

/-- `GatherTokens::gather_seq`: the loop shared by the enum, tuple and
sequence arms — capture values until `End`, pushing the `End` as well. -/
def gather_items : ℕ → List Token → M (List Token)
  | 0, _ => mthrow .EndOfStream
  | f + 1, acc =>
    mbind expect_token fun t =>
      if t = .End then mret (acc ++ [.End])
      else mbind (gather_token f acc t) fun acc' => gather_items f acc'

/-- `GatherTokens::gather_struct`: field names must be string-like (here,
unlike the Skip Engine, the error carries the pulled token), each followed
by one captured value. -/
def gather_struct : ℕ → List Token → M (List Token)
  | 0, _ => mthrow .EndOfStream
  | f + 1, acc =>
    mbind expect_token fun t =>
      if t = .End then mret (acc ++ [.End])
      else if (tokText t).isSome then
        mbind (gather f (acc ++ [t])) fun acc' => gather_struct f acc'
      else mthrow (.SyntaxError t)

/-- `GatherTokens::gather_map`: capture key then value until `End`. -/
def gather_map : ℕ → List Token → M (List Token)
  | 0, _ => mthrow .EndOfStream
  | f + 1, acc =>
    mbind expect_token fun t =>
      if t = .End then mret (acc ++ [.End])
      else
        mbind (gather_token f acc t) fun acc' =>
          mbind (gather f acc') fun acc'' => gather_map f acc''

end

/-- Scalar (single-token) complete values: every token except the five
structural openers, the universal closer `End` and the presence marker
`Option true` (the presence marker `Option false` is by itself a complete
value). -/
def IsScalarTok : Token → Bool
  | .Option b => !b
  | .TupleStart _ => false
  | .StructStart _ _ => false
  | .EnumStart _ _ _ => false
  | .SeqStart _ => false
  | .MapStart _ => false
  | .End => false
  | _ => true

/-- The four syntactic categories of the token grammar. -/
inductive Kind where
  | value | items | fields | pairs

/-- The grammar of structurally-complete token regions (§3 of the spec:
a complete value is "a contiguous, balanced sub-sequence of the stream").
`Gram .value v` says `v` is one complete value; `.items` is a
concatenation of complete values (tuple/sequence/enum bodies, without the
closing `End`); `.fields` a concatenation of string-like-name/value pairs
(struct bodies); `.pairs` a concatenation of key/value pairs (map
bodies). -/
inductive Gram : Kind → List Token → Prop where
  | scalar {t} : IsScalarTok t = true → Gram .value [t]
  | osome {v} : Gram .value v → Gram .value (.Option true :: v)
  | tup (n : ℕ) {body} : Gram .items body → Gram .value (.TupleStart n :: (body ++ [.End]))
  | sq (n : ℕ) {body} : Gram .items body → Gram .value (.SeqStart n :: (body ++ [.End]))
  | en (name variant : String) (n : ℕ) {body} : Gram .items body →
      Gram .value (.EnumStart name variant n :: (body ++ [.End]))
  | st (name : String) (n : ℕ) {body} : Gram .fields body →
      Gram .value (.StructStart name n :: (body ++ [.End]))
  | mp (n : ℕ) {body} : Gram .pairs body → Gram .value (.MapStart n :: (body ++ [.End]))
  | inil : Gram .items []
  | icons {v rest} : Gram .value v → Gram .items rest → Gram .items (v ++ rest)
  | fnil : Gram .fields []
  | fcons {s v rest} : (tokText s).isSome = true → Gram .value v → Gram .fields rest →
      Gram .fields (s :: (v ++ rest))
  | pnil : Gram .pairs []
  | pcons {k v rest} : Gram .value k → Gram .value v → Gram .pairs rest →
      Gram .pairs (k ++ (v ++ rest))

/-- Per-category goal of the Skip Engine exactness induction: skipping a
complete region consumes exactly that region and nothing more; the loop
variants consume their body plus the closing `End`. -/
def IgnoreStmt : Kind → List Token → Prop
  | .value, ts => ∀ t ts₀, ts = t :: ts₀ → ∀ f rest, 2 * ts.length ≤ f →
      ignore_token f t (ts₀ ++ rest) = .ok ((), rest)
  | .items, body => ∀ f rest, 2 * body.length + 1 ≤ f →
      ignore_items f (body ++ (.End :: rest)) = .ok ((), rest)
  | .fields, body => ∀ f orig rest, 2 * body.length + 1 ≤ f →
      ignore_struct f orig (body ++ (.End :: rest)) = .ok ((), rest)
  | .pairs, body => ∀ f rest, 2 * body.length + 1 ≤ f →
      ignore_map f (body ++ (.End :: rest)) = .ok ((), rest)

/-- Per-category goal of the Gather Engine exactness induction: gathering
a complete region consumes exactly that region and appends exactly its
tokens, in order, to the accumulated buffer. -/
def GatherStmt : Kind → List Token → Prop
  | .value, ts => ∀ t ts₀, ts = t :: ts₀ → ∀ f acc rest, 2 * ts.length ≤ f →
      gather_token f acc t (ts₀ ++ rest) = .ok (acc ++ (t :: ts₀), rest)
  | .items, body => ∀ f acc rest, 2 * body.length + 1 ≤ f →
      gather_items f acc (body ++ (.End :: rest)) = .ok (acc ++ (body ++ [.End]), rest)
  | .fields, body => ∀ f acc rest, 2 * body.length + 1 ≤ f →
      gather_struct f acc (body ++ (.End :: rest)) = .ok (acc ++ (body ++ [.End]), rest)
  | .pairs, body => ∀ f acc rest, 2 * body.length + 1 ≤ f →
      gather_map f acc (body ++ (.End :: rest)) = .ok (acc ++ (body ++ [.End]), rest)

/-- Locality of a stream computation: a successful run consumes a
determined prefix of the stream, and replacing everything after that
prefix does not change the result.  This captures that the pull-based
operations only ever look at the tokens they consume. -/
def MLocal {α : Type} (m : M α) : Prop :=
  ∀ ts a r, m ts = .ok (a, r) → ∃ p, ts = p ++ r ∧ ∀ r', m (p ++ r') = .ok (a, r')

/-- The error kinds the core's own expect operations may produce: the
end-of-stream error or a syntax error — never the missing-field error. -/
def ErrOk (e : Err) : Prop := e = .EndOfStream ∨ ∃ t, e = .SyntaxError t

/-- Every failure of `m` is an end-of-stream or syntax error. -/
def MGood {α : Type} (m : M α) : Prop := ∀ ts e, m ts = .error e → ErrOk e

/-- Fuel monotonicity relation: every success of `m` is a success of `m'`
with the same result. -/
def MMonoPair {α : Type} (m m' : M α) : Prop := ∀ ts r, m ts = .ok r → m' ts = .ok r

/-- The stream region before the closing `End` splits into per-element
chunks, each of which the element type decodes (consuming exactly its
chunk) to the corresponding value, at fuel `fe`. -/
inductive SeqElems (τ : Ty) (fe : ℕ) : List Token → List Val → Prop where
  | nil : SeqElems τ fe [] []
  | cons {t ts v body vs} : t ≠ .End → deserialize_token fe τ t ts = .ok (v, []) →
      SeqElems τ fe body vs → SeqElems τ fe ((t :: ts) ++ body) (v :: vs)

theorem gram_value_ne_nil {v} (h : Gram .value v) : v ≠ [] := by
  cases h <;> simp

theorem gram_value_head_ne_end {t ts} (h : Gram .value (t :: ts)) : t ≠ .End := by
  cases h with
  | scalar hs => rintro rfl; simp [IsScalarTok] at hs
  | osome _ => simp
  | tup n _ => simp
  | sq n _ => simp
  | en name variant n _ => simp
  | st name n _ => simp
  | mp n _ => simp

theorem tokText_isSome_ne_end {t : Token} (h : (tokText t).isSome = true) : t ≠ .End := by
  rintro rfl; simp [tokText] at h

@[simp] theorem mret_apply {α : Type} (a : α) (ts : List Token) : mret a ts = .ok (a, ts) := rfl

@[simp] theorem mthrow_apply {α : Type} (e : Err) (ts : List Token) :
    (mthrow e : M α) ts = .error e := rfl

@[simp] theorem expect_token_nil : expect_token [] = .error .EndOfStream := rfl

@[simp] theorem expect_token_cons (t : Token) (ts : List Token) :
    expect_token (t :: ts) = .ok (t, ts) := rfl

theorem mbind_eq_of_ok {α β : Type} {m : M α} {f : α → M β} {ts : List Token} {a : α}
    {ts' : List Token} (h : m ts = .ok (a, ts')) : mbind m f ts = f a ts' := by
  simp [mbind, h]

theorem mbind_eq_of_error {α β : Type} {m : M α} {f : α → M β} {ts : List Token} {e : Err}
    (h : m ts = .error e) : mbind m f ts = .error e := by
  simp [mbind, h]

/-- Skip Engine exactness: over any structurally-complete region the Skip
Engine succeeds and leaves the stream exactly at the first token after the
region, for every continuation `rest` of the stream. -/
theorem ignore_gram {k ts} (h : Gram k ts) : IgnoreStmt k ts := by
  induction h with
  | @scalar t hs =>
    intro t' ts₀ heq f rest hf
    injection heq with h1 h2
    subst h1; subst h2
    simp only [List.length_cons, List.length_nil] at hf
    obtain ⟨f, rfl⟩ : ∃ f', f = f' + 1 := ⟨f - 1, by omega⟩
    cases t <;> simp_all [ignore_token, IsScalarTok]
  | @osome v hv ih =>
    intro t' ts₀ heq f rest hf
    injection heq with h1 h2
    subst h1; subst h2
    simp only [IgnoreStmt] at ih
    simp only [List.length_cons] at hf
    obtain ⟨f, rfl⟩ : ∃ f', f = f' + 1 := ⟨f - 1, by omega⟩
    obtain ⟨tv, v₀, rfl⟩ : ∃ tv v₀, v = tv :: v₀ := by
      cases v with
      | nil => exact absurd rfl (gram_value_ne_nil hv)
      | cons tv v₀ => exact ⟨tv, v₀, rfl⟩
    simp only [List.length_cons] at hf
    simp only [ignore_token, List.cons_append]
    rw [mbind_eq_of_ok (expect_token_cons _ _)]
    exact ih tv v₀ rfl f rest (by simp only [List.length_cons]; omega)
  | @tup n body hb ih =>
    intro t' ts₀ heq f rest hf
    injection heq with h1 h2
    subst h1; subst h2
    simp only [IgnoreStmt] at ih
    simp only [List.length_cons, List.length_append, List.length_singleton] at hf
    obtain ⟨f, rfl⟩ : ∃ f', f = f' + 1 := ⟨f - 1, by omega⟩
    simp only [ignore_token, List.append_assoc, List.singleton_append]
    exact ih f rest (by omega)
  | @sq n body hb ih =>
    intro t' ts₀ heq f rest hf
    injection heq with h1 h2
    subst h1; subst h2
    simp only [IgnoreStmt] at ih
    simp only [List.length_cons, List.length_append, List.length_singleton] at hf
    obtain ⟨f, rfl⟩ : ∃ f', f = f' + 1 := ⟨f - 1, by omega⟩
    simp only [ignore_token, List.append_assoc, List.singleton_append]
    exact ih f rest (by omega)
  | @en name variant n body hb ih =>
    intro t' ts₀ heq f rest hf
    injection heq with h1 h2
    subst h1; subst h2
    simp only [IgnoreStmt] at ih
    simp only [List.length_cons, List.length_append, List.length_singleton] at hf
    obtain ⟨f, rfl⟩ : ∃ f', f = f' + 1 := ⟨f - 1, by omega⟩
    simp only [ignore_token, List.append_assoc, List.singleton_append]
    exact ih f rest (by omega)
  | @st name n body hb ih =>
    intro t' ts₀ heq f rest hf
    injection heq with h1 h2
    subst h1; subst h2
    simp only [IgnoreStmt] at ih
    simp only [List.length_cons, List.length_append, List.length_singleton] at hf
    obtain ⟨f, rfl⟩ : ∃ f', f = f' + 1 := ⟨f - 1, by omega⟩
    simp only [ignore_token, List.append_assoc, List.singleton_append]
    exact ih f (.StructStart name n) rest (by omega)
  | @mp n body hb ih =>
    intro t' ts₀ heq f rest hf
    injection heq with h1 h2
    subst h1; subst h2
    simp only [IgnoreStmt] at ih
    simp only [List.length_cons, List.length_append, List.length_singleton] at hf
    obtain ⟨f, rfl⟩ : ∃ f', f = f' + 1 := ⟨f - 1, by omega⟩
    simp only [ignore_token, List.append_assoc, List.singleton_append]
    exact ih f rest (by omega)
  | inil =>
    intro f rest hf
    obtain ⟨f, rfl⟩ : ∃ f', f = f' + 1 := ⟨f - 1, by omega⟩
    simp [ignore_items, mbind]
  | @icons v restI hv hr ihv ihr =>
    simp only [IgnoreStmt] at ihv ihr ⊢
    intro f rest hf
    obtain ⟨tv, v₀, rfl⟩ : ∃ tv v₀, v = tv :: v₀ := by
      cases v with
      | nil => exact absurd rfl (gram_value_ne_nil hv)
      | cons tv v₀ => exact ⟨tv, v₀, rfl⟩
    simp only [List.length_append, List.length_cons] at hf
    obtain ⟨f, rfl⟩ : ∃ f', f = f' + 1 := ⟨f - 1, by omega⟩
    simp only [ignore_items, List.cons_append, List.append_assoc]
    rw [mbind_eq_of_ok (expect_token_cons _ _)]
    rw [if_neg (gram_value_head_ne_end hv)]
    rw [mbind_eq_of_ok (ihv tv v₀ rfl f (restI ++ (.End :: rest))
      (by simp only [List.length_cons]; omega))]
    exact ihr f rest (by omega)
  | fnil =>
    intro f orig rest hf
    obtain ⟨f, rfl⟩ : ∃ f', f = f' + 1 := ⟨f - 1, by omega⟩
    simp [ignore_struct, mbind]
  | @fcons s v restF hs hv hr ihv ihr =>
    simp only [IgnoreStmt] at ihv ihr ⊢
    intro f orig rest hf
    obtain ⟨tv, v₀, rfl⟩ : ∃ tv v₀, v = tv :: v₀ := by
      cases v with
      | nil => exact absurd rfl (gram_value_ne_nil hv)
      | cons tv v₀ => exact ⟨tv, v₀, rfl⟩
    simp only [List.length_cons, List.length_append] at hf
    obtain ⟨f, rfl⟩ : ∃ f', f = f' + 1 := ⟨f - 1, by omega⟩
    simp only [ignore_struct, List.cons_append, List.append_assoc]
    rw [mbind_eq_of_ok (expect_token_cons _ _)]
    rw [if_neg (tokText_isSome_ne_end hs)]
    rw [if_pos hs]
    have hinner : mbind expect_token (fun t' => ignore_token f t')
        (tv :: (v₀ ++ (restF ++ (.End :: rest)))) = .ok ((), restF ++ (.End :: rest)) := by
      rw [mbind_eq_of_ok (expect_token_cons _ _)]
      exact ihv tv v₀ rfl f (restF ++ (.End :: rest)) (by simp only [List.length_cons]; omega)
    rw [mbind_eq_of_ok hinner]
    exact ihr f orig rest (by omega)
  | pnil =>
    intro f rest hf
    obtain ⟨f, rfl⟩ : ∃ f', f = f' + 1 := ⟨f - 1, by omega⟩
    simp [ignore_map, mbind]
  | @pcons k v restP hk hv hr ihk ihv ihr =>
    simp only [IgnoreStmt] at ihk ihv ihr ⊢
    intro f rest hf
    obtain ⟨tk, k₀, rfl⟩ : ∃ tk k₀, k = tk :: k₀ := by
      cases k with
      | nil => exact absurd rfl (gram_value_ne_nil hk)
      | cons tk k₀ => exact ⟨tk, k₀, rfl⟩
    obtain ⟨tv, v₀, rfl⟩ : ∃ tv v₀, v = tv :: v₀ := by
      cases v with
      | nil => exact absurd rfl (gram_value_ne_nil hv)
      | cons tv v₀ => exact ⟨tv, v₀, rfl⟩
    simp only [List.length_cons, List.length_append] at hf
    obtain ⟨f, rfl⟩ : ∃ f', f = f' + 1 := ⟨f - 1, by omega⟩
    simp only [ignore_map, List.cons_append, List.append_assoc]
    rw [mbind_eq_of_ok (expect_token_cons _ _)]
    rw [if_neg (gram_value_head_ne_end hk)]
    rw [mbind_eq_of_ok (ihk tk k₀ rfl f (tv :: (v₀ ++ (restP ++ (.End :: rest))))
      (by simp only [List.length_cons]; omega))]
    have hinner : mbind expect_token (fun t' => ignore_token f t')
        (tv :: (v₀ ++ (restP ++ (.End :: rest)))) = .ok ((), restP ++ (.End :: rest)) := by
      rw [mbind_eq_of_ok (expect_token_cons _ _)]
      exact ihv tv v₀ rfl f (restP ++ (.End :: rest)) (by simp only [List.length_cons]; omega)
    rw [mbind_eq_of_ok hinner]
    exact ihr f rest (by omega)

/-- Gather Engine exactness: over any structurally-complete region the
Gather Engine succeeds, advances the stream exactly to the first token
after the region (exactly as far as the Skip Engine does), and the
captured buffer is exactly the region's token sequence. -/
theorem gather_gram {k ts} (h : Gram k ts) : GatherStmt k ts := by
  induction h with
  | @scalar t hs =>
    intro t' ts₀ heq f acc rest hf
    injection heq with h1 h2
    subst h1; subst h2
    simp only [List.length_cons, List.length_nil] at hf
    obtain ⟨f, rfl⟩ : ∃ f', f = f' + 1 := ⟨f - 1, by omega⟩
    cases t <;> simp_all [gather_token, IsScalarTok]
  | @osome v hv ih =>
    intro t' ts₀ heq f acc rest hf
    injection heq with h1 h2
    subst h1; subst h2
    simp only [GatherStmt] at ih
    simp only [List.length_cons] at hf
    obtain ⟨f, rfl⟩ : ∃ f', f = f' + 1 := ⟨f - 1, by omega⟩
    obtain ⟨tv, v₀, rfl⟩ : ∃ tv v₀, v = tv :: v₀ := by
      cases v with
      | nil => exact absurd rfl (gram_value_ne_nil hv)
      | cons tv v₀ => exact ⟨tv, v₀, rfl⟩
    simp only [List.length_cons] at hf
    obtain ⟨f, rfl⟩ : ∃ f'', f = f'' + 1 := ⟨f - 1, by omega⟩
    simp only [gather_token, gather, List.cons_append]
    rw [mbind_eq_of_ok (expect_token_cons _ _)]
    rw [ih tv v₀ rfl f (acc ++ [Token.Option true]) rest (by simp only [List.length_cons]; omega)]
    simp
  | @tup n body hb ih =>
    intro t' ts₀ heq f acc rest hf
    injection heq with h1 h2
    subst h1; subst h2
    simp only [GatherStmt] at ih
    simp only [List.length_cons, List.length_append, List.length_singleton] at hf
    obtain ⟨f, rfl⟩ : ∃ f', f = f' + 1 := ⟨f - 1, by omega⟩
    simp only [gather_token, List.append_assoc, List.singleton_append]
    rw [ih f (acc ++ [Token.TupleStart n]) rest (by omega)]
    simp
  | @sq n body hb ih =>
    intro t' ts₀ heq f acc rest hf
    injection heq with h1 h2
    subst h1; subst h2
    simp only [GatherStmt] at ih
    simp only [List.length_cons, List.length_append, List.length_singleton] at hf
    obtain ⟨f, rfl⟩ : ∃ f', f = f' + 1 := ⟨f - 1, by omega⟩
    simp only [gather_token, List.append_assoc, List.singleton_append]
    rw [ih f (acc ++ [Token.SeqStart n]) rest (by omega)]
    simp
  | @en name variant n body hb ih =>
    intro t' ts₀ heq f acc rest hf
    injection heq with h1 h2
    subst h1; subst h2
    simp only [GatherStmt] at ih
    simp only [List.length_cons, List.length_append, List.length_singleton] at hf
    obtain ⟨f, rfl⟩ : ∃ f', f = f' + 1 := ⟨f - 1, by omega⟩
    simp only [gather_token, List.append_assoc, List.singleton_append]
    rw [ih f (acc ++ [Token.EnumStart name variant n]) rest (by omega)]
    simp
  | @st name n body hb ih =>
    intro t' ts₀ heq f acc rest hf
    injection heq with h1 h2
    subst h1; subst h2
    simp only [GatherStmt] at ih
    simp only [List.length_cons, List.length_append, List.length_singleton] at hf
    obtain ⟨f, rfl⟩ : ∃ f', f = f' + 1 := ⟨f - 1, by omega⟩
    simp only [gather_token, List.append_assoc, List.singleton_append]
    rw [ih f (acc ++ [Token.StructStart name n]) rest (by omega)]
    simp
  | @mp n body hb ih =>
    intro t' ts₀ heq f acc rest hf
    injection heq with h1 h2
    subst h1; subst h2
    simp only [GatherStmt] at ih
    simp only [List.length_cons, List.length_append, List.length_singleton] at hf
    obtain ⟨f, rfl⟩ : ∃ f', f = f' + 1 := ⟨f - 1, by omega⟩
    simp only [gather_token, List.append_assoc, List.singleton_append]
    rw [ih f (acc ++ [Token.MapStart n]) rest (by omega)]
    simp
  | inil =>
    intro f acc rest hf
    obtain ⟨f, rfl⟩ : ∃ f', f = f' + 1 := ⟨f - 1, by omega⟩
    simp [gather_items, mbind]
  | @icons v restI hv hr ihv ihr =>
    simp only [GatherStmt] at ihv ihr ⊢
    intro f acc rest hf
    obtain ⟨tv, v₀, rfl⟩ : ∃ tv v₀, v = tv :: v₀ := by
      cases v with
      | nil => exact absurd rfl (gram_value_ne_nil hv)
      | cons tv v₀ => exact ⟨tv, v₀, rfl⟩
    simp only [List.length_append, List.length_cons] at hf
    obtain ⟨f, rfl⟩ : ∃ f', f = f' + 1 := ⟨f - 1, by omega⟩
    simp only [gather_items, List.cons_append, List.append_assoc]
    rw [mbind_eq_of_ok (expect_token_cons _ _)]
    rw [if_neg (gram_value_head_ne_end hv)]
    rw [mbind_eq_of_ok (ihv tv v₀ rfl f acc (restI ++ (.End :: rest))
      (by simp only [List.length_cons]; omega))]
    rw [ihr f (acc ++ (tv :: v₀)) rest (by omega)]
    simp
  | fnil =>
    intro f acc rest hf
    obtain ⟨f, rfl⟩ : ∃ f', f = f' + 1 := ⟨f - 1, by omega⟩
    simp [gather_struct, mbind]
  | @fcons s v restF hs hv hr ihv ihr =>
    simp only [GatherStmt] at ihv ihr ⊢
    intro f acc rest hf
    obtain ⟨tv, v₀, rfl⟩ : ∃ tv v₀, v = tv :: v₀ := by
      cases v with
      | nil => exact absurd rfl (gram_value_ne_nil hv)
      | cons tv v₀ => exact ⟨tv, v₀, rfl⟩
    simp only [List.length_cons, List.length_append] at hf
    obtain ⟨f, rfl⟩ : ∃ f', f = f' + 1 := ⟨f - 1, by omega⟩
    simp only [gather_struct, List.cons_append, List.append_assoc]
    rw [mbind_eq_of_ok (expect_token_cons _ _)]
    rw [if_neg (tokText_isSome_ne_end hs)]
    rw [if_pos hs]
    obtain ⟨f, rfl⟩ : ∃ f'', f = f'' + 1 := ⟨f - 1, by omega⟩
    have hinner : gather (f + 1) (acc ++ [s]) (tv :: (v₀ ++ (restF ++ (.End :: rest)))) =
        .ok ((acc ++ [s]) ++ (tv :: v₀), restF ++ (.End :: rest)) := by
      simp only [gather]
      rw [mbind_eq_of_ok (expect_token_cons _ _)]
      exact ihv tv v₀ rfl f (acc ++ [s]) (restF ++ (.End :: rest))
        (by simp only [List.length_cons]; omega)
    rw [mbind_eq_of_ok hinner]
    rw [ihr (f + 1) ((acc ++ [s]) ++ (tv :: v₀)) rest (by omega)]
    simp
  | pnil =>
    intro f acc rest hf
    obtain ⟨f, rfl⟩ : ∃ f', f = f' + 1 := ⟨f - 1, by omega⟩
    simp [gather_map, mbind]
  | @pcons k v restP hk hv hr ihk ihv ihr =>
    simp only [GatherStmt] at ihk ihv ihr ⊢
    intro f acc rest hf
    obtain ⟨tk, k₀, rfl⟩ : ∃ tk k₀, k = tk :: k₀ := by
      cases k with
      | nil => exact absurd rfl (gram_value_ne_nil hk)
      | cons tk k₀ => exact ⟨tk, k₀, rfl⟩
    obtain ⟨tv, v₀, rfl⟩ : ∃ tv v₀, v = tv :: v₀ := by
      cases v with
      | nil => exact absurd rfl (gram_value_ne_nil hv)
      | cons tv v₀ => exact ⟨tv, v₀, rfl⟩
    simp only [List.length_cons, List.length_append] at hf
    obtain ⟨f, rfl⟩ : ∃ f', f = f' + 1 := ⟨f - 1, by omega⟩
    simp only [gather_map, List.cons_append, List.append_assoc]
    rw [mbind_eq_of_ok (expect_token_cons _ _)]
    rw [if_neg (gram_value_head_ne_end hk)]
    rw [mbind_eq_of_ok (ihk tk k₀ rfl f acc (tv :: (v₀ ++ (restP ++ (.End :: rest))))
      (by simp only [List.length_cons]; omega))]
    obtain ⟨f, rfl⟩ : ∃ f'', f = f'' + 1 := ⟨f - 1, by omega⟩
    have hinner : gather (f + 1) (acc ++ (tk :: k₀)) (tv :: (v₀ ++ (restP ++ (.End :: rest)))) =
        .ok ((acc ++ (tk :: k₀)) ++ (tv :: v₀), restP ++ (.End :: rest)) := by
      simp only [gather]
      rw [mbind_eq_of_ok (expect_token_cons _ _)]
      exact ihv tv v₀ rfl f (acc ++ (tk :: k₀)) (restP ++ (.End :: rest))
        (by simp only [List.length_cons]; omega)
    rw [mbind_eq_of_ok hinner]
    rw [ihr (f + 1) ((acc ++ (tk :: k₀)) ++ (tv :: v₀)) rest (by omega)]
    simp

theorem mlocal_ret {α : Type} (a : α) : MLocal (mret a) := by
  intro ts a' r h
  simp only [mret_apply, Except.ok.injEq, Prod.mk.injEq] at h
  obtain ⟨rfl, rfl⟩ := h
  exact ⟨[], by simp⟩

theorem mlocal_mthrow {α : Type} (e : Err) : MLocal (mthrow e : M α) := by
  intro ts a r h
  simp at h

theorem mlocal_expect_token : MLocal expect_token := by
  intro ts a r h
  cases ts with
  | nil => simp at h
  | cons t ts' =>
    simp only [expect_token_cons, Except.ok.injEq, Prod.mk.injEq] at h
    obtain ⟨rfl, rfl⟩ := h
    exact ⟨[t], by simp⟩

theorem mlocal_mbind {α β : Type} {m : M α} {g : α → M β} (hm : MLocal m)
    (hg : ∀ a, MLocal (g a)) : MLocal (mbind m g) := by
  intro ts b r h
  rcases hmts : m ts with e | ⟨a, ts₁⟩
  · rw [mbind_eq_of_error hmts] at h; simp at h
  · rw [mbind_eq_of_ok hmts] at h
    obtain ⟨p₁, rfl, hrep₁⟩ := hm ts a ts₁ hmts
    obtain ⟨p₂, rfl, hrep₂⟩ := hg a ts₁ b r h
    refine ⟨p₁ ++ p₂, by simp, fun r' => ?_⟩
    rw [List.append_assoc]
    rw [mbind_eq_of_ok (hrep₁ (p₂ ++ r'))]
    exact hrep₂ r'

theorem mgood_ret {α : Type} (a : α) : MGood (mret a) := by
  intro ts e h; simp at h

theorem mgood_mthrow {α : Type} {e : Err} (he : ErrOk e) : MGood (mthrow e : M α) := by
  intro ts e' h
  simp only [mthrow_apply, Except.error.injEq] at h
  exact h ▸ he

theorem mgood_expect_token : MGood expect_token := by
  intro ts e h
  cases ts with
  | nil => simp only [expect_token_nil, Except.error.injEq] at h; exact Or.inl h.symm
  | cons t ts' => simp at h

theorem mgood_mbind {α β : Type} {m : M α} {g : α → M β} (hm : MGood m)
    (hg : ∀ a, MGood (g a)) : MGood (mbind m g) := by
  intro ts e h
  rcases hmts : m ts with ee | ⟨a, ts₁⟩
  · rw [mbind_eq_of_error hmts] at h
    cases h
    exact hm ts e hmts
  · rw [mbind_eq_of_ok hmts] at h
    exact hg a ts₁ e h

theorem mmono_refl {α : Type} (m : M α) : MMonoPair m m := fun _ _ h => h

theorem mmono_mbind {α β : Type} {m m' : M α} {g g' : α → M β} (hm : MMonoPair m m')
    (hg : ∀ a, MMonoPair (g a) (g' a)) : MMonoPair (mbind m g) (mbind m' g') := by
  intro ts r h
  rcases hmts : m ts with e | ⟨a, ts₁⟩
  · rw [mbind_eq_of_error hmts] at h; simp at h
  · rw [mbind_eq_of_ok hmts] at h
    rw [mbind_eq_of_ok (hm ts (a, ts₁) hmts)]
    exact hg a ts₁ r h

theorem mmono_mthrow {α : Type} (e : Err) (m : M α) : MMonoPair (mthrow e) m := by
  intro ts r h; simp at h

theorem errok_eos : ErrOk .EndOfStream := Or.inl rfl

theorem errok_syn (t : Token) : ErrOk (.SyntaxError t) := Or.inr ⟨t, rfl⟩

/-- `expect_num` factored through `numValue`: dispatch on whether the
token is numeric, then on the checked cast. -/
theorem expect_num_eq (tgt : NumTarget) (token : Token) :
    expect_num tgt token =
      match numValue token with
      | some q =>
        match numCast tgt q with
        | some v => mret v
        | none => mthrow (.SyntaxError token)
      | none => mthrow (.SyntaxError token) := by
  cases token <;> rfl

theorem mlocal_expect_null (t : Token) : MLocal (expect_null t) := by
  cases t <;>
    first
      | exact mlocal_ret _
      | exact mlocal_mthrow _
      | exact mlocal_mbind mlocal_expect_token fun t' => by
          split <;> first | exact mlocal_ret _ | exact mlocal_mthrow _

theorem mgood_expect_null (t : Token) : MGood (expect_null t) := by
  cases t <;>
    first
      | exact mgood_ret _
      | exact mgood_mthrow (errok_syn _)
      | exact mgood_mbind mgood_expect_token fun t' => by
          split <;> first | exact mgood_ret _ | exact mgood_mthrow (errok_syn _)

theorem mlocal_expect_bool (t : Token) : MLocal (expect_bool t) := by
  cases t <;> first | exact mlocal_ret _ | exact mlocal_mthrow _

theorem mgood_expect_bool (t : Token) : MGood (expect_bool t) := by
  cases t <;> first | exact mgood_ret _ | exact mgood_mthrow (errok_syn _)

theorem mlocal_expect_num (tgt : NumTarget) (t : Token) : MLocal (expect_num tgt t) := by
  have he := expect_num_eq tgt t
  cases hq : numValue t with
  | none =>
    simp only [hq] at he
    rw [he]; exact mlocal_mthrow _
  | some q =>
    simp only [hq] at he
    cases hc : numCast tgt q with
    | none =>
      simp only [hc] at he
      rw [he]; exact mlocal_mthrow _
    | some v =>
      simp only [hc] at he
      rw [he]; exact mlocal_ret _

theorem mgood_expect_num (tgt : NumTarget) (t : Token) : MGood (expect_num tgt t) := by
  have he := expect_num_eq tgt t
  cases hq : numValue t with
  | none =>
    simp only [hq] at he
    rw [he]; exact mgood_mthrow (errok_syn _)
  | some q =>
    simp only [hq] at he
    cases hc : numCast tgt q with
    | none =>
      simp only [hc] at he
      rw [he]; exact mgood_mthrow (errok_syn _)
    | some v =>
      simp only [hc] at he
      rw [he]; exact mgood_ret _

theorem mlocal_expect_char (t : Token) : MLocal (expect_char t) := by
  cases t <;> first | exact mlocal_ret _ | exact mlocal_mthrow _

theorem mgood_expect_char (t : Token) : MGood (expect_char t) := by
  cases t <;> first | exact mgood_ret _ | exact mgood_mthrow (errok_syn _)

theorem mlocal_expect_str (t : Token) : MLocal (expect_str t) := by
  cases t <;> first | exact mlocal_ret _ | exact mlocal_mthrow _

theorem mgood_expect_str (t : Token) : MGood (expect_str t) := by
  cases t <;> first | exact mgood_ret _ | exact mgood_mthrow (errok_syn _)

theorem mlocal_expect_string (t : Token) : MLocal (expect_string t) := by
  cases t <;> first | exact mlocal_ret _ | exact mlocal_mthrow _

theorem mgood_expect_string (t : Token) : MGood (expect_string t) := by
  cases t <;> first | exact mgood_ret _ | exact mgood_mthrow (errok_syn _)

theorem mlocal_expect_option {α : Type} {dT : M α} (hdT : MLocal dT) (t : Token) :
    MLocal (expect_option dT t) := by
  cases t with
  | Option b =>
    cases b with
    | false => exact mlocal_ret _
    | true => exact mlocal_mbind hdT fun v => mlocal_ret _
  | _ => exact mlocal_mthrow _

theorem mgood_expect_option {α : Type} {dT : M α} (hdT : MGood dT) (t : Token) :
    MGood (expect_option dT t) := by
  cases t with
  | Option b =>
    cases b with
    | false => exact mgood_ret _
    | true => exact mgood_mbind hdT fun v => mgood_ret _
  | _ => exact mgood_mthrow (errok_syn _)

theorem mlocal_expect_tuple_start (t : Token) : MLocal (expect_tuple_start t) := by
  cases t <;> first | exact mlocal_ret _ | exact mlocal_mthrow _

theorem mgood_expect_tuple_start (t : Token) : MGood (expect_tuple_start t) := by
  cases t <;> first | exact mgood_ret _ | exact mgood_mthrow (errok_syn _)

theorem mlocal_expect_tuple_end : MLocal expect_tuple_end :=
  mlocal_mbind mlocal_expect_token fun t' => by
    cases t' <;> first | exact mlocal_ret _ | exact mlocal_mthrow _

theorem mgood_expect_tuple_end : MGood expect_tuple_end :=
  mgood_mbind mgood_expect_token fun t' => by
    cases t' <;> first | exact mgood_ret _ | exact mgood_mthrow (errok_syn _)

theorem mlocal_expect_struct_start (t : Token) (name : String) :
    MLocal (expect_struct_start t name) := by
  cases t <;>
    first
      | exact mlocal_mthrow _
      | exact (by
          simp only [expect_struct_start]
          split <;> first | exact mlocal_ret _ | exact mlocal_mthrow _)

theorem mgood_expect_struct_start (t : Token) (name : String) :
    MGood (expect_struct_start t name) := by
  cases t <;>
    first
      | exact mgood_mthrow (errok_syn _)
      | exact (by
          simp only [expect_struct_start]
          split <;> first | exact mgood_ret _ | exact mgood_mthrow (errok_syn _))

theorem mlocal_expect_struct_field {α : Type} {dT : M α} (hdT : MLocal dT) (name : String) :
    MLocal (expect_struct_field dT name) :=
  mlocal_mbind mlocal_expect_token fun t' => by
    split
    · exact hdT
    · exact mlocal_mthrow _

theorem mgood_expect_struct_field {α : Type} {dT : M α} (hdT : MGood dT) (name : String) :
    MGood (expect_struct_field dT name) :=
  mgood_mbind mgood_expect_token fun t' => by
    split
    · exact hdT
    · exact mgood_mthrow (errok_syn _)

theorem mlocal_expect_struct_end : MLocal expect_struct_end :=
  mlocal_mbind mlocal_expect_token fun t' => by
    cases t' <;> first | exact mlocal_ret _ | exact mlocal_mthrow _

theorem mgood_expect_struct_end : MGood expect_struct_end :=
  mgood_mbind mgood_expect_token fun t' => by
    cases t' <;> first | exact mgood_ret _ | exact mgood_mthrow (errok_syn _)

theorem mlocal_expect_enum_start (t : Token) (name : String) (variants : List String) :
    MLocal (expect_enum_start t name variants) := by
  cases t <;>
    first
      | exact mlocal_mthrow _
      | exact (by
          simp only [expect_enum_start]
          split
          · split
            · exact mlocal_ret _
            · exact mlocal_mthrow _
          · exact mlocal_mthrow _)

theorem mgood_expect_enum_start (t : Token) (name : String) (variants : List String) :
    MGood (expect_enum_start t name variants) := by
  cases t <;>
    first
      | exact mgood_mthrow (errok_syn _)
      | exact (by
          simp only [expect_enum_start]
          split
          · split
            · exact mgood_ret _
            · exact mgood_mthrow (errok_syn _)
          · exact mgood_mthrow (errok_syn _))

theorem mlocal_expect_enum_end : MLocal expect_enum_end :=
  mlocal_mbind mlocal_expect_token fun t' => by
    cases t' <;> first | exact mlocal_ret _ | exact mlocal_mthrow _

theorem mgood_expect_enum_end : MGood expect_enum_end :=
  mgood_mbind mgood_expect_token fun t' => by
    cases t' <;> first | exact mgood_ret _ | exact mgood_mthrow (errok_syn _)

theorem mlocal_expect_seq_start (t : Token) : MLocal (expect_seq_start t) := by
  cases t <;> first | exact mlocal_ret _ | exact mlocal_mthrow _

theorem mgood_expect_seq_start (t : Token) : MGood (expect_seq_start t) := by
  cases t <;> first | exact mgood_ret _ | exact mgood_mthrow (errok_syn _)

theorem mlocal_expect_seq_elt_or_end {α : Type} {dtok : Token → M α}
    (hdtok : ∀ t, MLocal (dtok t)) : MLocal (expect_seq_elt_or_end dtok) :=
  mlocal_mbind mlocal_expect_token fun t' => by
    split
    · exact mlocal_ret _
    · exact mlocal_mbind (hdtok t') fun v => mlocal_ret _

theorem mgood_expect_seq_elt_or_end {α : Type} {dtok : Token → M α}
    (hdtok : ∀ t, MGood (dtok t)) : MGood (expect_seq_elt_or_end dtok) :=
  mgood_mbind mgood_expect_token fun t' => by
    split
    · exact mgood_ret _
    · exact mgood_mbind (hdtok t') fun v => mgood_ret _

theorem mlocal_seq_items {α : Type} {dtok : Token → M α} (hdtok : ∀ t, MLocal (dtok t)) :
    ∀ f, MLocal (seq_items dtok f) := by
  intro f
  induction f with
  | zero => exact mlocal_mthrow _
  | succ f ih =>
    refine mlocal_mbind (mlocal_expect_seq_elt_or_end hdtok) fun o => ?_
    cases o with
    | none => exact mlocal_ret _
    | some v => exact mlocal_mbind ih fun vs => mlocal_ret _

theorem mgood_seq_items {α : Type} {dtok : Token → M α} (hdtok : ∀ t, MGood (dtok t)) :
    ∀ f, MGood (seq_items dtok f) := by
  intro f
  induction f with
  | zero => exact mgood_mthrow errok_eos
  | succ f ih =>
    refine mgood_mbind (mgood_expect_seq_elt_or_end hdtok) fun o => ?_
    cases o with
    | none => exact mgood_ret _
    | some v => exact mgood_mbind ih fun vs => mgood_ret _

theorem mlocal_expect_seq {α : Type} {dtok : Token → M α} (hdtok : ∀ t, MLocal (dtok t))
    (t : Token) (f : ℕ) : MLocal (expect_seq dtok t f) :=
  mlocal_mbind (mlocal_expect_seq_start t) fun _ => mlocal_seq_items hdtok f

theorem mgood_expect_seq {α : Type} {dtok : Token → M α} (hdtok : ∀ t, MGood (dtok t))
    (t : Token) (f : ℕ) : MGood (expect_seq dtok t f) :=
  mgood_mbind (mgood_expect_seq_start t) fun _ => mgood_seq_items hdtok f

theorem mlocal_expect_map_start (t : Token) : MLocal (expect_map_start t) := by
  cases t <;> first | exact mlocal_ret _ | exact mlocal_mthrow _

theorem mgood_expect_map_start (t : Token) : MGood (expect_map_start t) := by
  cases t <;> first | exact mgood_ret _ | exact mgood_mthrow (errok_syn _)

theorem mlocal_expect_map_elt_or_end {α β : Type} {dtokK : Token → M α} {dV : M β}
    (hK : ∀ t, MLocal (dtokK t)) (hV : MLocal dV) : MLocal (expect_map_elt_or_end dtokK dV) :=
  mlocal_mbind mlocal_expect_token fun t' => by
    split
    · exact mlocal_ret _
    · exact mlocal_mbind (hK t') fun k => mlocal_mbind hV fun v => mlocal_ret _

theorem mgood_expect_map_elt_or_end {α β : Type} {dtokK : Token → M α} {dV : M β}
    (hK : ∀ t, MGood (dtokK t)) (hV : MGood dV) : MGood (expect_map_elt_or_end dtokK dV) :=
  mgood_mbind mgood_expect_token fun t' => by
    split
    · exact mgood_ret _
    · exact mgood_mbind (hK t') fun k => mgood_mbind hV fun v => mgood_ret _

theorem mlocal_map_items {α β : Type} {dtokK : Token → M α} {dV : M β}
    (hK : ∀ t, MLocal (dtokK t)) (hV : MLocal dV) : ∀ f, MLocal (map_items dtokK dV f) := by
  intro f
  induction f with
  | zero => exact mlocal_mthrow _
  | succ f ih =>
    refine mlocal_mbind (mlocal_expect_map_elt_or_end hK hV) fun o => ?_
    cases o with
    | none => exact mlocal_ret _
    | some kv => exact mlocal_mbind ih fun kvs => mlocal_ret _

theorem mgood_map_items {α β : Type} {dtokK : Token → M α} {dV : M β}
    (hK : ∀ t, MGood (dtokK t)) (hV : MGood dV) : ∀ f, MGood (map_items dtokK dV f) := by
  intro f
  induction f with
  | zero => exact mgood_mthrow errok_eos
  | succ f ih =>
    refine mgood_mbind (mgood_expect_map_elt_or_end hK hV) fun o => ?_
    cases o with
    | none => exact mgood_ret _
    | some kv => exact mgood_mbind ih fun kvs => mgood_ret _

theorem mlocal_expect_map {α β : Type} {dtokK : Token → M α} {dV : M β}
    (hK : ∀ t, MLocal (dtokK t)) (hV : MLocal dV) (t : Token) (f : ℕ) :
    MLocal (expect_map dtokK dV t f) :=
  mlocal_mbind (mlocal_expect_map_start t) fun _ => mlocal_map_items hK hV f

theorem mgood_expect_map {α β : Type} {dtokK : Token → M α} {dV : M β}
    (hK : ∀ t, MGood (dtokK t)) (hV : MGood dV) (t : Token) (f : ℕ) :
    MGood (expect_map dtokK dV t f) :=
  mgood_mbind (mgood_expect_map_start t) fun _ => mgood_map_items hK hV f

/-- Locality of the whole Dispatch Mechanism, for every fuel: decoding
consumes a determined prefix and never looks past it. -/
theorem decode_local_all : ∀ f,
    (∀ τ, MLocal (deserialize f τ)) ∧
    (∀ τ t, MLocal (deserialize_token f τ t)) ∧
    (∀ τs, MLocal (tuple_elems f τs)) ∧
    (∀ fls, MLocal (struct_fields f fls)) := by
  intro f
  induction f with
  | zero =>
    exact ⟨fun τ => mlocal_mthrow _, fun τ t => mlocal_mthrow _,
      fun τs => mlocal_mthrow _, fun fls => mlocal_mthrow _⟩
  | succ f ih =>
    obtain ⟨ihd, ihtok, ihtup, ihsf⟩ := ih
    refine ⟨?_, ?_, ?_, ?_⟩
    · intro τ
      simp only [deserialize]
      exact mlocal_mbind mlocal_expect_token fun t => ihtok τ t
    · intro τ t
      cases τ with
      | unit =>
        simp only [deserialize_token]
        exact mlocal_mbind (mlocal_expect_null t) fun _ => mlocal_ret _
      | bool =>
        simp only [deserialize_token]
        exact mlocal_mbind (mlocal_expect_bool t) fun b => mlocal_ret _
      | num tgt =>
        simp only [deserialize_token]
        exact mlocal_mbind (mlocal_expect_num tgt t) fun q => mlocal_ret _
      | char =>
        simp only [deserialize_token]
        exact mlocal_mbind (mlocal_expect_char t) fun c => mlocal_ret _
      | str =>
        simp only [deserialize_token]
        exact mlocal_mbind (mlocal_expect_str t) fun s => mlocal_ret _
      | string =>
        simp only [deserialize_token]
        exact mlocal_mbind (mlocal_expect_string t) fun s => mlocal_ret _
      | opt τ =>
        simp only [deserialize_token]
        exact mlocal_mbind (mlocal_expect_option (ihd τ) t) fun o => mlocal_ret _
      | box τ =>
        simp only [deserialize_token]
        exact ihtok τ t
      | seq τ =>
        simp only [deserialize_token]
        exact mlocal_mbind (mlocal_expect_seq (fun t' => ihtok τ t') t (f + 1)) fun vs =>
          mlocal_ret _
      | tmap κ ν =>
        simp only [deserialize_token]
        exact mlocal_mbind (mlocal_expect_map (fun t' => ihtok κ t') (ihd ν) t (f + 1)) fun kvs =>
          mlocal_ret _
      | tuple τs =>
        simp only [deserialize_token]
        exact mlocal_mbind (mlocal_expect_tuple_start t) fun _ =>
          mlocal_mbind (ihtup τs) fun vs =>
            mlocal_mbind mlocal_expect_tuple_end fun _ => mlocal_ret _
      | structTy name fields =>
        simp only [deserialize_token]
        exact mlocal_mbind (mlocal_expect_struct_start t name) fun _ =>
          mlocal_mbind (ihsf fields) fun vs =>
            mlocal_mbind mlocal_expect_struct_end fun _ => mlocal_ret _
      | enumTy name variants =>
        simp only [deserialize_token]
        refine mlocal_mbind (mlocal_expect_enum_start t name (variants.map Prod.fst)) fun i => ?_
        split
        · exact mlocal_mbind (ihtup _) fun args =>
            mlocal_mbind mlocal_expect_enum_end fun _ => mlocal_ret _
        · exact mlocal_mthrow _
    · intro τs
      cases τs with
      | nil => simp only [tuple_elems]; exact mlocal_ret _
      | cons τ τs =>
        simp only [tuple_elems]
        exact mlocal_mbind (ihd τ) fun v => mlocal_mbind (ihtup τs) fun vs => mlocal_ret _
    · intro fls
      cases fls with
      | nil => simp only [struct_fields]; exact mlocal_ret _
      | cons p fls =>
        obtain ⟨name, τ⟩ := p
        simp only [struct_fields]
        exact mlocal_mbind (mlocal_expect_struct_field (ihd τ) name) fun v =>
          mlocal_mbind (ihsf fls) fun vs => mlocal_ret _

/-- Error taxonomy of the whole Dispatch Mechanism, for every fuel: every
failure is an end-of-stream or syntax error — the missing-field
constructor is never used. -/
theorem decode_good_all : ∀ f,
    (∀ τ, MGood (deserialize f τ)) ∧
    (∀ τ t, MGood (deserialize_token f τ t)) ∧
    (∀ τs, MGood (tuple_elems f τs)) ∧
    (∀ fls, MGood (struct_fields f fls)) := by
  intro f
  induction f with
  | zero =>
    exact ⟨fun τ => mgood_mthrow errok_eos, fun τ t => mgood_mthrow errok_eos,
      fun τs => mgood_mthrow errok_eos, fun fls => mgood_mthrow errok_eos⟩
  | succ f ih =>
    obtain ⟨ihd, ihtok, ihtup, ihsf⟩ := ih
    refine ⟨?_, ?_, ?_, ?_⟩
    · intro τ
      simp only [deserialize]
      exact mgood_mbind mgood_expect_token fun t => ihtok τ t
    · intro τ t
      cases τ with
      | unit =>
        simp only [deserialize_token]
        exact mgood_mbind (mgood_expect_null t) fun _ => mgood_ret _
      | bool =>
        simp only [deserialize_token]
        exact mgood_mbind (mgood_expect_bool t) fun b => mgood_ret _
      | num tgt =>
        simp only [deserialize_token]
        exact mgood_mbind (mgood_expect_num tgt t) fun q => mgood_ret _
      | char =>
        simp only [deserialize_token]
        exact mgood_mbind (mgood_expect_char t) fun c => mgood_ret _
      | str =>
        simp only [deserialize_token]
        exact mgood_mbind (mgood_expect_str t) fun s => mgood_ret _
      | string =>
        simp only [deserialize_token]
        exact mgood_mbind (mgood_expect_string t) fun s => mgood_ret _
      | opt τ =>
        simp only [deserialize_token]
        exact mgood_mbind (mgood_expect_option (ihd τ) t) fun o => mgood_ret _
      | box τ =>
        simp only [deserialize_token]
        exact ihtok τ t
      | seq τ =>
        simp only [deserialize_token]
        exact mgood_mbind (mgood_expect_seq (fun t' => ihtok τ t') t (f + 1)) fun vs =>
          mgood_ret _
      | tmap κ ν =>
        simp only [deserialize_token]
        exact mgood_mbind (mgood_expect_map (fun t' => ihtok κ t') (ihd ν) t (f + 1)) fun kvs =>
          mgood_ret _
      | tuple τs =>
        simp only [deserialize_token]
        exact mgood_mbind (mgood_expect_tuple_start t) fun _ =>
          mgood_mbind (ihtup τs) fun vs =>
            mgood_mbind mgood_expect_tuple_end fun _ => mgood_ret _
      | structTy name fields =>
        simp only [deserialize_token]
        exact mgood_mbind (mgood_expect_struct_start t name) fun _ =>
          mgood_mbind (ihsf fields) fun vs =>
            mgood_mbind mgood_expect_struct_end fun _ => mgood_ret _
      | enumTy name variants =>
        simp only [deserialize_token]
        refine mgood_mbind (mgood_expect_enum_start t name (variants.map Prod.fst)) fun i => ?_
        split
        · exact mgood_mbind (ihtup _) fun args =>
            mgood_mbind mgood_expect_enum_end fun _ => mgood_ret _
        · exact mgood_mthrow (errok_syn _)
    · intro τs
      cases τs with
      | nil => simp only [tuple_elems]; exact mgood_ret _
      | cons τ τs =>
        simp only [tuple_elems]
        exact mgood_mbind (ihd τ) fun v => mgood_mbind (ihtup τs) fun vs => mgood_ret _
    · intro fls
      cases fls with
      | nil => simp only [struct_fields]; exact mgood_ret _
      | cons p fls =>
        obtain ⟨name, τ⟩ := p
        simp only [struct_fields]
        exact mgood_mbind (mgood_expect_struct_field (ihd τ) name) fun v =>
          mgood_mbind (ihsf fls) fun vs => mgood_ret _

theorem mmono_trans {α : Type} {m₁ m₂ m₃ : M α} (h₁ : MMonoPair m₁ m₂) (h₂ : MMonoPair m₂ m₃) :
    MMonoPair m₁ m₃ := fun ts r h => h₂ ts r (h₁ ts r h)

theorem mmono_expect_option {α : Type} {dT dT' : M α} (h : MMonoPair dT dT') (t : Token) :
    MMonoPair (expect_option dT t) (expect_option dT' t) := by
  cases t with
  | Option b =>
    cases b with
    | false => exact mmono_refl _
    | true => exact mmono_mbind h fun v => mmono_refl _
  | _ => exact mmono_mthrow _ _

theorem mmono_expect_struct_field {α : Type} {dT dT' : M α} (h : MMonoPair dT dT')
    (name : String) : MMonoPair (expect_struct_field dT name) (expect_struct_field dT' name) :=
  mmono_mbind (mmono_refl _) fun t' => by
    by_cases hc : tokText t' = some name
    · simp only [expect_struct_field, if_pos hc]
      exact h
    · simp only [expect_struct_field, if_neg hc]
      exact mmono_mthrow _ _

theorem mmono_expect_seq_elt_or_end {α : Type} {dtok dtok' : Token → M α}
    (h : ∀ t, MMonoPair (dtok t) (dtok' t)) :
    MMonoPair (expect_seq_elt_or_end dtok) (expect_seq_elt_or_end dtok') :=
  mmono_mbind (mmono_refl _) fun t' => by
    by_cases hc : t' = Token.End
    · simp only [expect_seq_elt_or_end, if_pos hc]
      exact mmono_refl _
    · simp only [expect_seq_elt_or_end, if_neg hc]
      exact mmono_mbind (h t') fun v => mmono_refl _

theorem mmono_seq_items {α : Type} {dtok dtok' : Token → M α}
    (h : ∀ t, MMonoPair (dtok t) (dtok' t)) :
    ∀ g, MMonoPair (seq_items dtok g) (seq_items dtok' (g + 1)) := by
  intro g
  induction g with
  | zero => exact mmono_mthrow _ _
  | succ g ih =>
    simp only [seq_items]
    refine mmono_mbind (mmono_expect_seq_elt_or_end h) fun o => ?_
    cases o with
    | none => exact mmono_refl _
    | some v => exact mmono_mbind ih fun vs => mmono_refl _

theorem mmono_expect_seq {α : Type} {dtok dtok' : Token → M α}
    (h : ∀ t, MMonoPair (dtok t) (dtok' t)) (t : Token) (g : ℕ) :
    MMonoPair (expect_seq dtok t g) (expect_seq dtok' t (g + 1)) :=
  mmono_mbind (mmono_refl _) fun _ => mmono_seq_items h g

theorem mmono_expect_map_elt_or_end {α β : Type} {dtokK dtokK' : Token → M α} {dV dV' : M β}
    (hK : ∀ t, MMonoPair (dtokK t) (dtokK' t)) (hV : MMonoPair dV dV') :
    MMonoPair (expect_map_elt_or_end dtokK dV) (expect_map_elt_or_end dtokK' dV') :=
  mmono_mbind (mmono_refl _) fun t' => by
    by_cases hc : t' = Token.End
    · simp only [expect_map_elt_or_end, if_pos hc]
      exact mmono_refl _
    · simp only [expect_map_elt_or_end, if_neg hc]
      exact mmono_mbind (hK t') fun k => mmono_mbind hV fun v => mmono_refl _

theorem mmono_map_items {α β : Type} {dtokK dtokK' : Token → M α} {dV dV' : M β}
    (hK : ∀ t, MMonoPair (dtokK t) (dtokK' t)) (hV : MMonoPair dV dV') :
    ∀ g, MMonoPair (map_items dtokK dV g) (map_items dtokK' dV' (g + 1)) := by
  intro g
  induction g with
  | zero => exact mmono_mthrow _ _
  | succ g ih =>
    simp only [map_items]
    refine mmono_mbind (mmono_expect_map_elt_or_end hK hV) fun o => ?_
    cases o with
    | none => exact mmono_refl _
    | some kv => exact mmono_mbind ih fun kvs => mmono_refl _

theorem mmono_expect_map {α β : Type} {dtokK dtokK' : Token → M α} {dV dV' : M β}
    (hK : ∀ t, MMonoPair (dtokK t) (dtokK' t)) (hV : MMonoPair dV dV') (t : Token) (g : ℕ) :
    MMonoPair (expect_map dtokK dV t g) (expect_map dtokK' dV' t (g + 1)) :=
  mmono_mbind (mmono_refl _) fun _ => mmono_map_items hK hV g

/-- Fuel monotonicity of the Dispatch Mechanism: a success at fuel `f` is
the same success at fuel `f + 1`. -/
theorem decode_mono_all : ∀ f,
    (∀ τ, MMonoPair (deserialize f τ) (deserialize (f + 1) τ)) ∧
    (∀ τ t, MMonoPair (deserialize_token f τ t) (deserialize_token (f + 1) τ t)) ∧
    (∀ τs, MMonoPair (tuple_elems f τs) (tuple_elems (f + 1) τs)) ∧
    (∀ fls, MMonoPair (struct_fields f fls) (struct_fields (f + 1) fls)) := by
  intro f
  induction f with
  | zero =>
    exact ⟨fun τ => mmono_mthrow _ _, fun τ t => mmono_mthrow _ _,
      fun τs => mmono_mthrow _ _, fun fls => mmono_mthrow _ _⟩
  | succ f ih =>
    obtain ⟨ihd, ihtok, ihtup, ihsf⟩ := ih
    refine ⟨?_, ?_, ?_, ?_⟩
    · intro τ
      simp only [deserialize]
      exact mmono_mbind (mmono_refl _) fun t => ihtok τ t
    · intro τ t
      cases τ with
      | unit => simp only [deserialize_token]; exact mmono_refl _
      | bool => simp only [deserialize_token]; exact mmono_refl _
      | num tgt => simp only [deserialize_token]; exact mmono_refl _
      | char => simp only [deserialize_token]; exact mmono_refl _
      | str => simp only [deserialize_token]; exact mmono_refl _
      | string => simp only [deserialize_token]; exact mmono_refl _
      | opt τ =>
        simp only [deserialize_token]
        exact mmono_mbind (mmono_expect_option (ihd τ) t) fun o => mmono_refl _
      | box τ =>
        simp only [deserialize_token]
        exact ihtok τ t
      | seq τ =>
        simp only [deserialize_token]
        exact mmono_mbind (mmono_expect_seq (fun t' => ihtok τ t') t (f + 1)) fun vs =>
          mmono_refl _
      | tmap κ ν =>
        simp only [deserialize_token]
        exact mmono_mbind (mmono_expect_map (fun t' => ihtok κ t') (ihd ν) t (f + 1)) fun kvs =>
          mmono_refl _
      | tuple τs =>
        simp only [deserialize_token]
        exact mmono_mbind (mmono_refl _) fun _ =>
          mmono_mbind (ihtup τs) fun vs => mmono_mbind (mmono_refl _) fun _ => mmono_refl _
      | structTy name fields =>
        simp only [deserialize_token]
        exact mmono_mbind (mmono_refl _) fun _ =>
          mmono_mbind (ihsf fields) fun vs => mmono_mbind (mmono_refl _) fun _ => mmono_refl _
      | enumTy name variants =>
        simp only [deserialize_token]
        refine mmono_mbind (mmono_refl _) fun i => ?_
        cases hgi : variants.get? i with
        | none => simp only [hgi]; exact mmono_mthrow _ _
        | some p =>
          obtain ⟨vname, argTys⟩ := p
          simp only [hgi]
          exact mmono_mbind (ihtup argTys) fun args => mmono_mbind (mmono_refl _) fun _ =>
            mmono_refl _
    · intro τs
      cases τs with
      | nil => simp only [tuple_elems]; exact mmono_refl _
      | cons τ τs =>
        simp only [tuple_elems]
        exact mmono_mbind (ihd τ) fun v => mmono_mbind (ihtup τs) fun vs => mmono_refl _
    · intro fls
      cases fls with
      | nil => simp only [struct_fields]; exact mmono_refl _
      | cons p fls =>
        obtain ⟨name, τ⟩ := p
        simp only [struct_fields]
        exact mmono_mbind (mmono_expect_struct_field (ihd τ) name) fun v =>
          mmono_mbind (ihsf fls) fun vs => mmono_refl _

/-- Fuel monotonicity, `≤` form, for `deserialize`. -/
theorem deserialize_mono_le {f g : ℕ} (h : f ≤ g) (τ : Ty) :
    MMonoPair (deserialize f τ) (deserialize g τ) := by
  induction g with
  | zero =>
    obtain rfl : f = 0 := Nat.le_zero.mp h
    exact mmono_refl _
  | succ g ih =>
    rcases Nat.lt_or_ge f (g + 1) with hf | hf
    · exact mmono_trans (ih (Nat.lt_succ_iff.mp hf)) ((decode_mono_all g).1 τ)
    · obtain rfl : f = g + 1 := Nat.le_antisymm h hf
      exact mmono_refl _

/-- Fuel monotonicity, `≤` form, for `deserialize_token`. -/
theorem deserialize_token_mono_le {f g : ℕ} (h : f ≤ g) (τ : Ty) (t : Token) :
    MMonoPair (deserialize_token f τ t) (deserialize_token g τ t) := by
  induction g with
  | zero =>
    obtain rfl : f = 0 := Nat.le_zero.mp h
    exact mmono_refl _
  | succ g ih =>
    rcases Nat.lt_or_ge f (g + 1) with hf | hf
    · exact mmono_trans (ih (Nat.lt_succ_iff.mp hf)) ((decode_mono_all g).2.1 τ t)
    · obtain rfl : f = g + 1 := Nat.le_antisymm h hf
      exact mmono_refl _

theorem tokText_some_cases {tok : Token} {m : String} (h : tokText tok = some m) :
    tok = .Str m ∨ tok = .String m := by
  cases tok <;> simp_all [tokText]

/-- C2: for every structurally-complete value, at arbitrary nesting depth,
a successful run of the Skip Engine (`IgnoreTokens::deserialize_token`,
given the value's leading token and the rest of the stream) leaves the
stream position exactly one token past the value's matching `End` token
(or past the single scalar token): the position after the skip is exactly
`rest`, the continuation of the stream after the value region.  Moreover
the skip never inspects scalar content: on any scalar token, whatever its
payload, it succeeds immediately, consuming nothing further. -/
theorem claim_C2_skip_exact :
    (∀ t ts₀ rest f, Gram .value (t :: ts₀) → 2 * (ts₀.length + 1) ≤ f →
      ignore_token f t (ts₀ ++ rest) = .ok ((), rest))
    ∧ (∀ t ts f, IsScalarTok t = true → 1 ≤ f → ignore_token f t ts = .ok ((), ts)) := by
  constructor
  · intro t ts₀ rest f hv hf
    have h := ignore_gram hv
    simp only [IgnoreStmt] at h
    exact h t ts₀ rfl f rest (by simp only [List.length_cons]; omega)
  · intro t ts f hs hf
    obtain ⟨f, rfl⟩ : ∃ f', f = f' + 1 := ⟨f - 1, by omega⟩
    cases t <;> simp_all [ignore_token, IsScalarTok]

/-- C2 witness: skipping the unknown value of spec scenario 6 over
`[map-open(1), Str "k", sequence-open(2), Int 1, Int 2, End, End]`
consumes through the final `End` and leaves the stream ready to yield the
next top-level token (`Int 9`). -/
theorem claim_C2_skip_exact_witness :
    ignore_token 14 (.MapStart 1)
      [Token.Str "k", .SeqStart 2, .Int 1, .Int 2, .End, .End, .Int 9] = .ok ((), [.Int 9]) := by
  have h1 : Gram .value [Token.Int 1] := Gram.scalar rfl
  have h2 : Gram .value [Token.Int 2] := Gram.scalar rfl
  have hItems : Gram .items [Token.Int 1, Token.Int 2] :=
    @Gram.icons [Token.Int 1] [Token.Int 2] h1 (@Gram.icons [Token.Int 2] [] h2 Gram.inil)
  have hSeq : Gram .value [Token.SeqStart 2, .Int 1, .Int 2, .End] := Gram.sq 2 hItems
  have hK : Gram .value [Token.Str "k"] := Gram.scalar rfl
  have hPairs : Gram .pairs [Token.Str "k", .SeqStart 2, .Int 1, .Int 2, .End] :=
    @Gram.pcons [Token.Str "k"] [Token.SeqStart 2, .Int 1, .Int 2, .End] [] hK hSeq Gram.pnil
  have hv : Gram .value [Token.MapStart 1, .Str "k", .SeqStart 2, .Int 1, .Int 2, .End, .End] :=
    Gram.mp 1 hPairs
  exact claim_C2_skip_exact.1 (.MapStart 1)
    [Token.Str "k", .SeqStart 2, .Int 1, .Int 2, .End, .End] [.Int 9] 14 hv (by decide)

/-- C1: for every structurally-complete value on the stream, (a) the
Gather Engine (`GatherTokens`, started with an empty buffer) succeeds; the
buffer it captures is exactly the value's token sequence, so re-fed it is
a valid token stream again; (b) gathering advances the stream exactly as
far as the Skip Engine does (both land on `rest`); and (c) whenever the
Dispatch Mechanism for any type decodes that value directly from the live
stream (consuming exactly the value region), re-feeding the captured
buffer as a stream into Dispatch for the same type decodes to the very
same value, consuming the whole buffer. -/
theorem claim_C1_gather_roundtrip (t : Token) (ts₀ rest : List Token) (f : ℕ)
    (hv : Gram .value (t :: ts₀)) (hf : 2 * (ts₀.length + 1) ≤ f) :
    gather_token f [] t (ts₀ ++ rest) = .ok (t :: ts₀, rest)
    ∧ ignore_token f t (ts₀ ++ rest) = .ok ((), rest)
    ∧ ∀ τ x F, deserialize F τ ((t :: ts₀) ++ rest) = .ok (x, rest) →
        deserialize F τ (t :: ts₀) = .ok (x, []) := by
  refine ⟨?_, ?_, ?_⟩
  · have h := gather_gram hv
    simp only [GatherStmt] at h
    have := h t ts₀ rfl f [] rest (by simp only [List.length_cons]; omega)
    simpa using this
  · have h := ignore_gram hv
    simp only [IgnoreStmt] at h
    exact h t ts₀ rfl f rest (by simp only [List.length_cons]; omega)
  · intro τ x F hdec
    obtain ⟨p, hp, hrep⟩ := (decode_local_all F).1 τ ((t :: ts₀) ++ rest) x rest hdec
    have hpe : t :: ts₀ = p := List.append_cancel_right hp
    have := hrep []
    rw [← hpe] at this
    simpa using this

/-- C1 witness: gathering the value of spec scenario 6 captures exactly
its seven tokens and leaves the stream at the next top-level token. -/
theorem claim_C1_gather_roundtrip_witness :
    gather_token 14 [] (.MapStart 1)
      [Token.Str "k", .SeqStart 2, .Int 1, .Int 2, .End, .End, .Int 9] =
      .ok ([Token.MapStart 1, .Str "k", .SeqStart 2, .Int 1, .Int 2, .End, .End], [.Int 9]) := by
  have h1 : Gram .value [Token.Int 1] := Gram.scalar rfl
  have h2 : Gram .value [Token.Int 2] := Gram.scalar rfl
  have hItems : Gram .items [Token.Int 1, Token.Int 2] :=
    @Gram.icons [Token.Int 1] [Token.Int 2] h1 (@Gram.icons [Token.Int 2] [] h2 Gram.inil)
  have hSeq : Gram .value [Token.SeqStart 2, .Int 1, .Int 2, .End] := Gram.sq 2 hItems
  have hK : Gram .value [Token.Str "k"] := Gram.scalar rfl
  have hPairs : Gram .pairs [Token.Str "k", .SeqStart 2, .Int 1, .Int 2, .End] :=
    @Gram.pcons [Token.Str "k"] [Token.SeqStart 2, .Int 1, .Int 2, .End] [] hK hSeq Gram.pnil
  have hv : Gram .value [Token.MapStart 1, .Str "k", .SeqStart 2, .Int 1, .Int 2, .End, .End] :=
    Gram.mp 1 hPairs
  exact (claim_C1_gather_roundtrip (.MapStart 1)
    [Token.Str "k", .SeqStart 2, .Int 1, .Int 2, .End, .End] [.Int 9] 14 hv (by decide)).1

/-- C3 counterexample: the claim says the one-token sequence consisting of
only the absence marker `Null` decodes as an optional.  On the code it
does not: `expect_option` accepts only the presence-marker tokens
`Option(false)`/`Option(true)`, so decoding `[Null]` as `Option<bool>`
fails with a syntax error carrying `Null` instead of yielding `None`. -/
theorem claim_C3_counterexample :
    deserialize 2 (.opt .bool) [Token.Null] = .error (.SyntaxError .Null) := rfl

/-- C3 amended: for every element type, the one-token sequence consisting
of only the presence-marker-false token (`Option(false)`) decodes as an
optional to the empty optional `None`; the absence marker `Null` itself is
rejected with a syntax error carrying `Null`. -/
theorem claim_C3_option_empty (τ : Ty) (f : ℕ) (hf : 2 ≤ f) :
    deserialize f (.opt τ) [Token.Option false] = .ok (.VOpt none, [])
    ∧ deserialize f (.opt τ) [Token.Null] = .error (.SyntaxError .Null) := by
  obtain ⟨f, rfl⟩ : ∃ f', f = f' + 1 := ⟨f - 1, by omega⟩
  obtain ⟨f, rfl⟩ : ∃ f'', f = f'' + 1 := ⟨f - 1, by omega⟩
  exact ⟨rfl, rfl⟩

/-- C3 witness for the amended claim, at element type `bool`. -/
theorem claim_C3_option_empty_witness :
    deserialize 2 (.opt .bool) [Token.Option false] = .ok (.VOpt none, [])
    ∧ deserialize 2 (.opt .bool) [Token.Null] = .error (.SyntaxError .Null) :=
  claim_C3_option_empty .bool 2 (by decide)

theorem listPos_of_mem {v : String} : ∀ {l : List String}, v ∈ l → ∃ i, listPos v l = some i := by
  intro l hmem
  induction l with
  | nil => simp at hmem
  | cons x xs ih =>
    by_cases hx : x = v
    · exact ⟨0, by simp [listPos, hx]⟩
    · have hmem' : v ∈ xs := by
        rcases List.mem_cons.mp hmem with h | h
        · exact absurd h.symm hx
        · exact h
      obtain ⟨i, hi⟩ := ih hmem'
      exact ⟨i + 1, by simp [listPos, hx, hi]⟩

theorem listPos_of_not_mem {v : String} : ∀ {l : List String}, v ∉ l → listPos v l = none := by
  intro l hmem
  induction l with
  | nil => rfl
  | cons x xs ih =>
    have hx : ¬(x = v) := fun h => hmem (h ▸ List.mem_cons_self x xs)
    have hxs : v ∉ xs := fun h => hmem (List.mem_cons_of_mem x h)
    simp [listPos, hx, ih hxs]

theorem listPos_spec {v : String} : ∀ {l : List String} {i : ℕ}, listPos v l = some i →
    l.get? i = some v ∧ ∀ j, j < i → l.get? j ≠ some v := by
  intro l
  induction l with
  | nil => intro i h; simp [listPos] at h
  | cons x xs ih =>
    intro i h
    by_cases hx : x = v
    · simp only [listPos, if_pos hx] at h
      cases h
      exact ⟨by simp [hx], by omega⟩
    · simp only [listPos, if_neg hx] at h
      rcases hxs : listPos v xs with _ | i'
      · rw [hxs] at h; simp at h
      · rw [hxs] at h
        simp only [Option.map_some', Option.some.injEq] at h
        subst h
        obtain ⟨hget, hfirst⟩ := ih hxs
        refine ⟨by simpa using hget, ?_⟩
        intro j hj
        cases j with
        | zero => simpa using fun h => hx h
        | succ j' =>
          have := hfirst j' (by omega)
          simpa using this

/-- C4: `expect_num` at any numeric target type: an integer or floating
scalar token carrying value `q` decodes to exactly `q` when `q` is
representable in the target type, and fails with a syntax error carrying
the original token when it is not; every non-numeric token fails with a
syntax error carrying that token.  (The checked cast itself models the
standard library's `NumCast` conversion, see `numCast`.) -/
theorem claim_C4_expect_num (tgt : NumTarget) (t : Token) (ts : List Token) :
    (∀ q, numValue t = some q →
      (representable tgt q = true → expect_num tgt t ts = .ok (q, ts))
      ∧ (representable tgt q = false → expect_num tgt t ts = .error (.SyntaxError t)))
    ∧ (numValue t = none → expect_num tgt t ts = .error (.SyntaxError t)) := by
  constructor
  · intro q hq
    have he := expect_num_eq tgt t
    simp only [hq] at he
    constructor
    · intro hr
      simp only [numCast, hr, if_true] at he
      rw [he]; rfl
    · intro hr
      simp [numCast, hr] at he
      rw [he]; rfl
  · intro hq
    have he := expect_num_eq tgt t
    simp only [hq] at he
    rw [he]; rfl

/-- C4 witness: token value 300 is not representable in the 8-bit signed
target, so `expect_num` fails with a syntax error carrying the original
`Int 300` token. -/
theorem claim_C4_expect_num_witness :
    expect_num .tI8 (.Int 300) [] = .error (.SyntaxError (.Int 300)) :=
  ((claim_C4_expect_num .tI8 (.Int 300) []).1 ((300 : ℤ) : ℚ) rfl).2 (by decide)

/-- C5: `expect_struct_field` succeeds only when the next pulled token is
a string-like token whose text exactly equals the statically expected
field name — on success the name token was `Str name` or `String name`
and the rest went to the field's value decode (conjunct 1); a string-like
token with any other text fails immediately with a syntax error carrying
that token (conjunct 2); consequently a struct decode that requests field
`a` first fails with a syntax error on the first field-name token whenever
that token names any other field, no matter what follows on the stream —
even if all field names are eventually present (conjunct 3). -/
theorem claim_C5_struct_field_order :
    (∀ (dT : M Val) name ts v r, expect_struct_field dT name ts = .ok (v, r) →
      ∃ ts', (ts = .Str name :: ts' ∨ ts = .String name :: ts') ∧ dT ts' = .ok (v, r))
    ∧ (∀ (dT : M Val) name tok ts m, tokText tok = some m → m ≠ name →
        expect_struct_field dT name (tok :: ts) = .error (.SyntaxError tok))
    ∧ (∀ sname a τa b τb f tok ts m, tokText tok = some m → m ≠ a →
        deserialize_token (f + 2) (.structTy sname [(a, τa), (b, τb)]) (.StructStart sname 2)
          (tok :: ts) = .error (.SyntaxError tok)) := by
  refine ⟨?_, ?_, ?_⟩
  · intro dT name ts v r h
    cases ts with
    | nil =>
      rw [show expect_struct_field dT name [] = .error .EndOfStream from rfl] at h
      simp at h
    | cons tok ts' =>
      rw [show expect_struct_field dT name (tok :: ts') =
        (if tokText tok = some name then dT else mthrow (.SyntaxError tok)) ts' from
          mbind_eq_of_ok (expect_token_cons tok ts')] at h
      by_cases hc : tokText tok = some name
      · rw [if_pos hc] at h
        rcases tokText_some_cases hc with rfl | rfl
        · exact ⟨ts', Or.inl rfl, h⟩
        · exact ⟨ts', Or.inr rfl, h⟩
      · rw [if_neg hc] at h
        simp at h
  · intro dT name tok ts m hm hne
    rw [show expect_struct_field dT name (tok :: ts) =
      (if tokText tok = some name then dT else mthrow (.SyntaxError tok)) ts from
        mbind_eq_of_ok (expect_token_cons tok ts)]
    rw [if_neg (by rw [hm]; simp; exact fun h => hne h)]
    rfl
  · intro sname a τa b τb f tok ts m hm hne
    have herr : expect_struct_field (deserialize f τa) a (tok :: ts) =
        .error (.SyntaxError tok) := by
      rw [show expect_struct_field (deserialize f τa) a (tok :: ts) =
        (if tokText tok = some a then deserialize f τa else mthrow (.SyntaxError tok)) ts from
          mbind_eq_of_ok (expect_token_cons tok ts)]
      rw [if_neg (by rw [hm]; simpa using hne)]
      rfl
    simp only [deserialize_token]
    rw [mbind_eq_of_ok (show expect_struct_start (.StructStart sname 2) sname (tok :: ts) =
      .ok ((), tok :: ts) by simp [expect_struct_start])]
    simp only [struct_fields]
    rw [mbind_eq_of_error (mbind_eq_of_error herr)]

/-- C5 witness: spec scenario 4 — a struct expecting fields `x` then `y`
over a stream presenting `y` first (with `x` present later) fails with a
syntax error on the first field-name token `Str "y"`. -/
theorem claim_C5_struct_field_order_witness :
    deserialize_token 5 (.structTy "P" [("x", .num .tInt), ("y", .num .tInt)])
      (.StructStart "P" 2) [Token.Str "y", .Int 2, .Str "x", .Int 1, .End] =
      .error (.SyntaxError (.Str "y")) :=
  claim_C5_struct_field_order.2.2 "P" "x" (.num .tInt) "y" (.num .tInt) 3 (.Str "y")
    [Token.Int 2, .Str "x", .Int 1, .End] "y" rfl (by decide)

/-- C6: `expect_enum_start` on a tagged-union opener succeeds exactly when
the opener's type name equals the expected union name and its variant name
occurs in the supplied ordered variant list, returning the variant's
position — the index of the first occurrence (conjuncts 1–2); a wrong type
name, or a variant name absent from the list, is a syntax error carrying
the opener (conjuncts 3–4); any non-union-open token is a syntax error
carrying that token (conjunct 5). -/
theorem claim_C6_enum_start (n v : String) (len : ℕ) (name : String)
    (variants : List String) (ts : List Token) :
    (n = name → ∀ i, listPos v variants = some i →
      expect_enum_start (.EnumStart n v len) name variants ts = .ok (i, ts)
        ∧ variants.get? i = some v ∧ ∀ j, j < i → variants.get? j ≠ some v)
    ∧ (n = name → v ∈ variants →
        ∃ i, expect_enum_start (.EnumStart n v len) name variants ts = .ok (i, ts))
    ∧ (n ≠ name →
        expect_enum_start (.EnumStart n v len) name variants ts =
          .error (.SyntaxError (.EnumStart n v len)))
    ∧ (v ∉ variants →
        expect_enum_start (.EnumStart n v len) name variants ts =
          .error (.SyntaxError (.EnumStart n v len)))
    ∧ (∀ t, (∀ n' v' len', t ≠ .EnumStart n' v' len') →
        expect_enum_start t name variants ts = .error (.SyntaxError t)) := by
  refine ⟨?_, ?_, ?_, ?_, ?_⟩
  · intro hn i hi
    subst hn
    obtain ⟨hget, hfirst⟩ := listPos_spec hi
    refine ⟨?_, hget, hfirst⟩
    simp only [expect_enum_start, if_pos rfl, hi]
    rfl
  · intro hn hmem
    subst hn
    obtain ⟨i, hi⟩ := listPos_of_mem hmem
    exact ⟨i, by simp only [expect_enum_start, if_pos rfl, hi]; rfl⟩
  · intro hn
    simp only [expect_enum_start, if_neg (Ne.symm hn)]
    rfl
  · intro hmem
    by_cases hn : name = n
    · simp only [expect_enum_start, if_pos hn, listPos_of_not_mem hmem]
      rfl
    · simp only [expect_enum_start, if_neg hn]
      rfl
  · intro t ht
    cases t <;> first | exact absurd rfl (ht _ _ _) | rfl

/-- C6 witness: spec scenario 5 — opener `EnumStart "Shape" "Circle" 1`
against union name `"Shape"` and variant list `["Circle", "Square"]`
resolves to position 0. -/
theorem claim_C6_enum_start_witness :
    expect_enum_start (.EnumStart "Shape" "Circle" 1) "Shape" ["Circle", "Square"] [] =
      .ok (0, []) :=
  ((claim_C6_enum_start "Shape" "Circle" 1 "Shape" ["Circle", "Square"] []).1 rfl 0 rfl).1

theorem seq_items_of_elems {τ : Ty} {fe : ℕ} : ∀ {body vs}, SeqElems τ fe body vs →
    ∀ F G rest, fe ≤ F → vs.length + 1 ≤ G →
      seq_items (fun t' => deserialize_token F τ t') G (body ++ (.End :: rest)) =
        .ok (vs, rest) := by
  intro body vs h
  induction h with
  | nil =>
    intro F G rest hF hG
    obtain ⟨G, rfl⟩ : ∃ G', G = G' + 1 := ⟨G - 1, by omega⟩
    simp [seq_items, expect_seq_elt_or_end, mbind]
  | @cons t ts v body' vs' ht hdec htail ih =>
    intro F G rest hF hG
    simp only [List.length_cons] at hG
    obtain ⟨G, rfl⟩ : ∃ G', G = G' + 1 := ⟨G - 1, by omega⟩
    simp only [seq_items, List.cons_append, List.append_assoc]
    have h1 : deserialize_token fe τ t (ts ++ (body' ++ (.End :: rest))) =
        .ok (v, body' ++ (.End :: rest)) := by
      obtain ⟨p, hp, hrep⟩ := (decode_local_all fe).2.1 τ t ts v [] hdec
      rw [List.append_nil] at hp
      subst hp
      exact hrep _
    have h2 := deserialize_token_mono_le hF τ t _ _ h1
    have helt : expect_seq_elt_or_end (fun t' => deserialize_token F τ t')
        (t :: (ts ++ (body' ++ (.End :: rest)))) = .ok (some v, body' ++ (.End :: rest)) := by
      rw [show expect_seq_elt_or_end (fun t' => deserialize_token F τ t')
          (t :: (ts ++ (body' ++ (.End :: rest)))) =
          (if t = .End then mret none
            else mbind (deserialize_token F τ t) fun value => mret (some value))
            (ts ++ (body' ++ (.End :: rest))) from mbind_eq_of_ok (expect_token_cons _ _)]
      rw [if_neg ht]
      rw [mbind_eq_of_ok h2]
      rfl
    rw [mbind_eq_of_ok helt]
    show mbind (seq_items (fun t' => deserialize_token F τ t') G)
      (fun vs => mret (v :: vs)) (body' ++ (.End :: rest)) = _
    rw [mbind_eq_of_ok (ih F G rest hF (by omega))]
    rfl

/-- C7: `expect_seq_start` accepts a tuple opener (conjunct 1) or a
sequence opener (conjunct 2), returning the count hint, and rejects every
other token with a syntax error (conjunct 3); the hint never influences
sequence decoding — decoding a sequence is the same function of the rest
of the stream for every hint value and for either opener kind (conjunct
4); and the elements decoded are exactly those preceding the `End` token:
whatever the hint `n`, a body of `k` element chunks followed by `End`
decodes to exactly those `k` values, the `End` token alone terminating the
iteration (conjunct 5). -/
theorem claim_C7_seq_hint_advisory :
    (∀ len ts, expect_seq_start (.TupleStart len) ts = .ok (len, ts))
    ∧ (∀ len ts, expect_seq_start (.SeqStart len) ts = .ok (len, ts))
    ∧ (∀ t ts, (∀ len, t ≠ .TupleStart len) → (∀ len, t ≠ .SeqStart len) →
        expect_seq_start t ts = .error (.SyntaxError t))
    ∧ (∀ τ f n n' ts,
        deserialize_token (f + 1) (.seq τ) (.SeqStart n) ts =
          deserialize_token (f + 1) (.seq τ) (.SeqStart n') ts
        ∧ deserialize_token (f + 1) (.seq τ) (.SeqStart n) ts =
          deserialize_token (f + 1) (.seq τ) (.TupleStart n') ts)
    ∧ (∀ τ fe body vs, SeqElems τ fe body vs →
        ∀ n rest F, fe + vs.length + 2 ≤ F →
          deserialize_token F (.seq τ) (.SeqStart n) (body ++ (.End :: rest)) =
            .ok (.VList vs, rest)) := by
  refine ⟨fun len ts => rfl, fun len ts => rfl, ?_, ?_, ?_⟩
  · intro t ts h1 h2
    cases t <;> first | exact absurd rfl (h1 _) | exact absurd rfl (h2 _) | rfl
  · intro τ f n n' ts
    exact ⟨rfl, rfl⟩
  · intro τ fe body vs h n rest F hF
    obtain ⟨F, rfl⟩ : ∃ F', F = F' + 1 := ⟨F - 1, by omega⟩
    simp only [deserialize_token]
    have hseq : expect_seq (fun t' => deserialize_token F τ t') (.SeqStart n) (F + 1)
        (body ++ (.End :: rest)) = .ok (vs, rest) := by
      show mbind (mret n) (fun _len => seq_items (fun t' => deserialize_token F τ t') (F + 1))
        (body ++ (.End :: rest)) = _
      rw [mbind_eq_of_ok (mret_apply n (body ++ (.End :: rest)))]
      exact seq_items_of_elems h F (F + 1) rest (by omega) (by omega)
    rw [mbind_eq_of_ok hseq]
    rfl

/-- C7 witness: a stream whose opener hint (7) disagrees with the actual
element count (2) still decodes exactly the two elements preceding `End`. -/
theorem claim_C7_seq_hint_advisory_witness :
    deserialize_token 7 (.seq .bool) (.SeqStart 7)
      [Token.Bool true, .Bool false, .End, .Int 9] =
      .ok (.VList [.VBool true, .VBool false], [.Int 9]) := by
  have h2 : SeqElems .bool 1 [Token.Bool false] [Val.VBool false] :=
    @SeqElems.cons .bool 1 (.Bool false) [] (.VBool false) [] [] (by decide) rfl SeqElems.nil
  have h1 : SeqElems .bool 1 [Token.Bool true, .Bool false]
      [Val.VBool true, .VBool false] :=
    @SeqElems.cons .bool 1 (.Bool true) [] (.VBool true) [Token.Bool false] [Val.VBool false]
      (by decide) rfl h2
  exact claim_C7_seq_hint_advisory.2.2.2.2 .bool 1 [Token.Bool true, .Bool false]
    [Val.VBool true, .VBool false] h1 7 [.Int 9] 7 (by decide)

theorem numCast_some {tgt : NumTarget} {q v : ℚ} (h : numCast tgt q = some v) :
    representable tgt q = true ∧ v = q := by
  by_cases hr : representable tgt q = true
  · refine ⟨hr, ?_⟩
    simp [numCast, hr] at h
    exact h.symm
  · have hrf : representable tgt q = false := by
      revert hr; cases representable tgt q <;> simp
    simp [numCast, hrf] at h

/-- C8: `expect_null` succeeds, returning unit, exactly on the absence
marker `Null` (conjunct 1) or on a tuple opener immediately followed by
`End` (conjunct 2); a tuple opener followed by anything other than `End`
is a syntax error carrying that token (conjunct 3), a tuple opener at the
end of the stream is the end-of-stream error (conjunct 4), and any other
leading token is a syntax error carrying it (conjunct 5).  The zero-arity
unit type's decode adapter delegates to `expect_null` (conjunct 6) — in
particular `[Null]` decodes as unit (conjunct 7) whereas
`expect_tuple_start` would reject `Null` (conjunct 8). -/
theorem claim_C8_null_unit (ts : List Token) :
    (expect_null .Null ts = .ok ((), ts))
    ∧ (∀ n ts', expect_null (.TupleStart n) (.End :: ts') = .ok ((), ts'))
    ∧ (∀ n t' ts', t' ≠ .End →
        expect_null (.TupleStart n) (t' :: ts') = .error (.SyntaxError t'))
    ∧ (∀ n, expect_null (.TupleStart n) [] = .error .EndOfStream)
    ∧ (∀ t, t ≠ .Null → (∀ n, t ≠ .TupleStart n) →
        expect_null t ts = .error (.SyntaxError t))
    ∧ (∀ f t, deserialize_token (f + 1) .unit t ts =
        mbind (expect_null t) (fun _ => mret .VUnit) ts)
    ∧ (∀ f, deserialize_token (f + 1) .unit .Null ts = .ok (.VUnit, ts))
    ∧ (expect_tuple_start .Null ts = .error (.SyntaxError .Null)) := by
  refine ⟨rfl, fun n ts' => rfl, ?_, fun n => rfl, ?_, fun f t => rfl, fun f => rfl, rfl⟩
  · intro n t' ts' ht
    have hstep : expect_null (.TupleStart n) (t' :: ts') =
        (if t' = .End then mret () else mthrow (.SyntaxError t')) ts' := rfl
    rw [hstep, if_neg ht]
    rfl
  · intro t h1 h2
    cases t <;> first | exact absurd rfl h1 | exact absurd rfl (h2 _) | rfl

/-- C8 witness: a tuple opener followed by a non-`End` token fails with a
syntax error carrying the offending token. -/
theorem claim_C8_null_unit_witness :
    expect_null (.TupleStart 0) [Token.Bool true] = .error (.SyntaxError (.Bool true)) :=
  (claim_C8_null_unit []).2.2.1 0 (.Bool true) [] (by decide)

/-- C9: for every provided expect operation of the Stream Contract (the
dispatching ones instantiated with the Dispatch Mechanism at an arbitrary
type and fuel) and every input stream, a failure is always either the
end-of-stream error or a syntax error — the missing-field constructor is
never invoked by the core's own expect operations (conjuncts 1–23); and a
mismatched scalar token never yields a default or coerced value: a scalar
expect operation succeeds only on exactly the matching token, returning
its exact payload and consuming nothing else (conjuncts 24–28). -/
theorem claim_C9_error_taxonomy :
    (∀ ts e, expect_token ts = .error e → ErrOk e)
    ∧ (∀ t ts e, expect_null t ts = .error e → ErrOk e)
    ∧ (∀ t ts e, expect_bool t ts = .error e → ErrOk e)
    ∧ (∀ tgt t ts e, expect_num tgt t ts = .error e → ErrOk e)
    ∧ (∀ tgt t ts e, expect_from_primitive tgt t ts = .error e → ErrOk e)
    ∧ (∀ t ts e, expect_char t ts = .error e → ErrOk e)
    ∧ (∀ t ts e, expect_str t ts = .error e → ErrOk e)
    ∧ (∀ t ts e, expect_string t ts = .error e → ErrOk e)
    ∧ (∀ τ f t ts e, expect_option (deserialize f τ) t ts = .error e → ErrOk e)
    ∧ (∀ t ts e, expect_tuple_start t ts = .error e → ErrOk e)
    ∧ (∀ ts e, expect_tuple_end ts = .error e → ErrOk e)
    ∧ (∀ t name ts e, expect_struct_start t name ts = .error e → ErrOk e)
    ∧ (∀ τ f name ts e, expect_struct_field (deserialize f τ) name ts = .error e → ErrOk e)
    ∧ (∀ ts e, expect_struct_end ts = .error e → ErrOk e)
    ∧ (∀ t name variants ts e, expect_enum_start t name variants ts = .error e → ErrOk e)
    ∧ (∀ ts e, expect_enum_end ts = .error e → ErrOk e)
    ∧ (∀ t ts e, expect_seq_start t ts = .error e → ErrOk e)
    ∧ (∀ τ f ts e,
        expect_seq_elt_or_end (fun t' => deserialize_token f τ t') ts = .error e → ErrOk e)
    ∧ (∀ τ f g t ts e,
        expect_seq (fun t' => deserialize_token f τ t') t g ts = .error e → ErrOk e)
    ∧ (∀ t ts e, expect_map_start t ts = .error e → ErrOk e)
    ∧ (∀ κ ν f ts e,
        expect_map_elt_or_end (fun t' => deserialize_token f κ t') (deserialize f ν) ts =
          .error e → ErrOk e)
    ∧ (∀ κ ν f g t ts e,
        expect_map (fun t' => deserialize_token f κ t') (deserialize f ν) t g ts =
          .error e → ErrOk e)
    ∧ (∀ τ f ts e, deserialize f τ ts = .error e → ErrOk e)
    ∧ (∀ t ts b r, expect_bool t ts = .ok (b, r) → t = .Bool b ∧ r = ts)
    ∧ (∀ t ts c r, expect_char t ts = .ok (c, r) → t = .Char c ∧ r = ts)
    ∧ (∀ t ts s r, expect_str t ts = .ok (s, r) → t = .Str s ∧ r = ts)
    ∧ (∀ t ts s r, expect_string t ts = .ok (s, r) → (t = .Str s ∨ t = .String s) ∧ r = ts)
    ∧ (∀ tgt t ts q r, expect_num tgt t ts = .ok (q, r) →
        numValue t = some q ∧ representable tgt q = true ∧ r = ts) := by
  refine ⟨mgood_expect_token, fun t => mgood_expect_null t, fun t => mgood_expect_bool t,
    fun tgt t => mgood_expect_num tgt t, fun tgt t => mgood_expect_num tgt t,
    fun t => mgood_expect_char t, fun t => mgood_expect_str t, fun t => mgood_expect_string t,
    fun τ f t => mgood_expect_option ((decode_good_all f).1 τ) t,
    fun t => mgood_expect_tuple_start t, mgood_expect_tuple_end,
    fun t name => mgood_expect_struct_start t name,
    fun τ f name => mgood_expect_struct_field ((decode_good_all f).1 τ) name,
    mgood_expect_struct_end, fun t name variants => mgood_expect_enum_start t name variants,
    mgood_expect_enum_end, fun t => mgood_expect_seq_start t,
    fun τ f => mgood_expect_seq_elt_or_end (fun t' => (decode_good_all f).2.1 τ t'),
    fun τ f g t => mgood_expect_seq (fun t' => (decode_good_all f).2.1 τ t') t g,
    fun t => mgood_expect_map_start t,
    fun κ ν f =>
      mgood_expect_map_elt_or_end (fun t' => (decode_good_all f).2.1 κ t')
        ((decode_good_all f).1 ν),
    fun κ ν f g t =>
      mgood_expect_map (fun t' => (decode_good_all f).2.1 κ t') ((decode_good_all f).1 ν) t g,
    fun τ f => (decode_good_all f).1 τ, ?_, ?_, ?_, ?_, ?_⟩
  · intro t ts b r h
    cases t <;> simp_all [expect_bool]
  · intro t ts c r h
    cases t <;> simp_all [expect_char]
  · intro t ts s r h
    cases t <;> simp_all [expect_str]
  · intro t ts s r h
    cases t <;> simp_all [expect_string]
  · intro tgt t ts q r h
    have he := expect_num_eq tgt t
    cases hq : numValue t with
    | none =>
      simp only [hq] at he
      rw [he] at h
      simp at h
    | some q0 =>
      simp only [hq] at he
      cases hc : numCast tgt q0 with
      | none =>
        simp only [hc] at he
        rw [he] at h
        simp at h
      | some v =>
        simp only [hc] at he
        rw [he] at h
        simp only [mret_apply, Except.ok.injEq, Prod.mk.injEq] at h
        obtain ⟨hrep, rfl⟩ := numCast_some hc
        obtain ⟨rfl, rfl⟩ := h
        exact ⟨rfl, hrep, rfl⟩

/-- C9 witness: pulling from the exhausted stream fails, and that failure
is one of the two permitted error kinds. -/
theorem claim_C9_error_taxonomy_witness : ErrOk .EndOfStream :=
  claim_C9_error_taxonomy.1 [] .EndOfStream rfl

/-- C10: when the Skip Engine, skipping a struct-open value, pulls a token
in field-name position that is neither a borrowed nor an owned string
token (and not `End`), it returns a syntax error whose carried token is
the original struct-open token — not the offending token it pulled. -/
theorem claim_C10_skip_struct_error (name : String) (n : ℕ) (tok : Token) (ts : List Token)
    (f : ℕ) (hstr : tokText tok = none) (hend : tok ≠ .End) :
    ignore_token (f + 2) (.StructStart name n) (tok :: ts) =
      .error (.SyntaxError (.StructStart name n))
    ∧ (tok ≠ .StructStart name n →
        ignore_token (f + 2) (.StructStart name n) (tok :: ts) ≠ .error (.SyntaxError tok)) := by
  have h1 : ignore_token (f + 2) (.StructStart name n) (tok :: ts) =
      .error (.SyntaxError (.StructStart name n)) := by
    show ignore_struct (f + 1) (.StructStart name n) (tok :: ts) = _
    rw [show ignore_struct (f + 1) (.StructStart name n) (tok :: ts) =
      (if tok = .End then mret ()
        else if (tokText tok).isSome then
          mbind (mbind expect_token fun t' => ignore_token f t') fun _ =>
            ignore_struct f (.StructStart name n)
        else mthrow (.SyntaxError (.StructStart name n))) ts from
        mbind_eq_of_ok (expect_token_cons _ _)]
    rw [if_neg hend]
    rw [if_neg (by simp [hstr])]
    rfl
  refine ⟨h1, fun hne h => hne ?_⟩
  rw [h1] at h
  simp only [Except.error.injEq, Err.SyntaxError.injEq] at h
  exact h.symm

/-- C10 witness: skipping a struct whose first field-name position holds
`Int 7` fails with a syntax error carrying the opener
`StructStart "S" 1`, not `Int 7`. -/
theorem claim_C10_skip_struct_error_witness :
    ignore_token 2 (.StructStart "S" 1) [Token.Int 7] =
      .error (.SyntaxError (.StructStart "S" 1)) :=
  (claim_C10_skip_struct_error "S" 1 (.Int 7) [] 0 rfl (by decide)).1
